import Mathlib

/-!
Verification development for the bundle subsystem of gmpublisher
(src/src-tauri/src/bundles.rs).

The Rust code is shallowly embedded:

* The multi-line regex `RE_BUNDLE_DATA` scans the source text line by line;
  every match is anchored at a line start, never crosses a newline, and at
  most one match arises per line.  We therefore model the scan as a
  per-line matcher `matchLine` applied to the list of lines obtained by
  splitting on the newline character.
* `PublishedFileId` (a `u64`) is modelled as `Nat`; `u64` string parsing
  checks the numeric bound explicitly.
* `chrono::DateTime<Utc>` is an opaque totally ordered value, modelled as
  `Nat`; RFC-2822 parsing and printing are environment parameters.
* The Steam remote-collection lookup is an environment parameter
  `fetch : Nat → Option (List Nat)` mirroring `fetch_collection_items`.
* Filesystem persistence either succeeds or fails; the outcome is passed
  as an explicit parameter, placed exactly where the fallible Rust calls
  occur.
-/

/-- The double-quote character, written via its code point. -/
def quoteChar : Char := Char.ofNat 34

/-- The single-quote character, written via its code point. -/
def apostChar : Char := Char.ofNat 39

/-- Space or tab, the character class `[ \t]` used throughout the regex. -/
def isWs (c : Char) : Bool := c == ' ' || c == '\t'

/-- Drop the leading run of spaces/tabs; models the anchored `^[ \t]*`
(and the possessive `[ \t]*+` after the directive marker). -/
def dropWs : List Char → List Char
  | [] => []
  | c :: cs => if isWs c then dropWs cs else c :: cs

/-- Split a character sequence into lines at newline characters; the
multi-line regex matches are in one-to-one correspondence with the
line-local matches on this list. -/
def splitLinesAux (cur : List Char) : List Char → List (List Char)
  | [] => [cur]
  | c :: cs => if c = '\n' then cur :: splitLinesAux [] cs else splitLinesAux (cur ++ [c]) cs

/-- All lines of a character sequence. -/
def splitLines (cs : List Char) : List (List Char) := splitLinesAux [] cs

/-- Check that the input starts with `'='` repeated `n` times followed by
the character `b`; used for the long-bracket closing delimiters. -/
def expectEqs (b : Char) : Nat → List Char → Bool
  | 0, c :: _ => c == b
  | n + 1, c :: cs => c == '=' && expectEqs b n cs
  | _, [] => false

/-- Check that the input starts with `a`, then `n` copies of `'='`, then
`b`; the shapes `]=*]` and `[=*[` accepted after the digits of a
long-bracket item literal. -/
def startsWithRun (a b : Char) (n : Nat) : List Char → Bool
  | c :: cs => a == c && expectEqs b n cs
  | [] => false

/-- One successful regex match: either an item literal (capture group 3,
the raw digit characters) or a directive (capture 4 = key, capture 5 =
optional value). -/
inductive Tok where
  | item (digits : List Char)
  | directive (key : String) (val : Option String)
deriving DecidableEq

/-- Match a quoted item literal after its opening quote `q`: one or more
digits followed by the same quote; the rest of the line is ignored. -/
def matchQuote (q : Char) (cs : List Char) : Option Tok :=
  match cs.takeWhile Char.isDigit, cs.dropWhile Char.isDigit with
  | [], _ => none
  | _ :: _, c :: _ => if c = q then some (Tok.item (cs.takeWhile Char.isDigit)) else none
  | _ :: _, [] => none

/-- Match a long-bracket item literal after its opening `'['`: `=*[`,
digits, then either the closing `]=*]` (with the same `=` count) or a
repeat of the opening delimiter `[=*[` (the regex alternative `\1`). -/
def matchBracket (cs : List Char) : Option Tok :=
  let n := (cs.takeWhile (fun c => c == '=')).length
  match cs.dropWhile (fun c => c == '=') with
  | '[' :: rest =>
    match rest.takeWhile Char.isDigit, rest.dropWhile Char.isDigit with
    | [], _ => none
    | ds@(_ :: _), after =>
      if startsWithRun '[' '[' n after || startsWithRun ']' ']' n after then
        some (Tok.item ds)
      else none
  | _ => none

/-- Split the directive remainder into key and optional value, following
the regex `(.+?)(?:[ \t]+(.+)|$)`: the lazy key grows until a whitespace
run followed by a value (greedy to end of line) or the end of line; a
single trailing whitespace character is swallowed into the key, while a
longer all-whitespace tail backtracks so that the value becomes the last
whitespace character. -/
def splitKVAux (acc : List Char) : List Char → List Char × Option (List Char)
  | [] => (acc, none)
  | c :: cs =>
    if isWs c then
      match (c :: cs).dropWhile isWs with
      | [] =>
        if 2 ≤ ((c :: cs).takeWhile isWs).length then
          (acc, some [((c :: cs).takeWhile isWs).getLastD c])
        else splitKVAux (acc ++ [c]) cs
      | r => (acc, some r)
    else splitKVAux (acc ++ [c]) cs

/-- Match a directive after the `--#` marker: possessively skip
whitespace, then split into key and optional value; an empty remainder
means no match at all. -/
def matchDirective (cs : List Char) : Option Tok :=
  match dropWs cs with
  | [] => none
  | c :: rest =>
    let kv := splitKVAux [c] rest
    some (Tok.directive (String.mk kv.1) (kv.2.map String.mk))

/-- The per-line matcher for `RE_BUNDLE_DATA`: after the anchored
whitespace skip, try the item-literal alternative (quote, apostrophe or
long bracket) or the directive alternative `--#…`. -/
def matchLine (l : List Char) : Option Tok :=
  match dropWs l with
  | [] => none
  | c :: rest =>
    if c = quoteChar then matchQuote quoteChar rest
    else if c = apostChar then matchQuote apostChar rest
    else if c = '[' then matchBracket rest
    else if c = '-' then
      match rest with
      | '-' :: '#' :: r => matchDirective r
      | _ => none
    else none

/-- Numeric value of a digit string (most significant first). -/
def digitsVal (ds : List Char) : Nat := ds.foldl (fun a c => 10 * a + (c.toNat - 48)) 0

/-- Rust `str::parse::<u64>`: an optional leading `'+'`, one or more
ASCII digits, and the value must fit in 64 bits. -/
def parseU64Chars (cs : List Char) : Option Nat :=
  let ds := match cs with
    | c :: rest => if c = '+' then rest else cs
    | [] => []
  if ds.isEmpty then none
  else if ds.all Char.isDigit then
    if digitsVal ds < 18446744073709551616 then some (digitsVal ds) else none
  else none

/-- `parse::<u64>` on a string value. -/
def parseU64 (s : String) : Option Nat := parseU64Chars s.data

/-- Errors of the bundle subsystem (`BundleError`); only the variants the
embedded operations can actually produce are exercised. -/
inductive BundleError where
  | IoError
  | ParseError
  | NoItemsFound
  | Serialization
  | SteamError (code : Nat)
  | InvalidCollection
deriving DecidableEq

/-- The collection link attached to a bundle (`BundleCollectionLink`).
The Rust field `include` is a Lean keyword, hence the trailing tick. -/
structure BundleCollectionLink where
  id : Nat
  include' : List Nat
  exclude : List Nat
deriving DecidableEq

/-- A bundle (`struct Bundle`); `updated` is the opaque timestamp. -/
structure Bundle where
  id : Nat
  name : String
  updated : Nat
  collection : Option BundleCollectionLink
  items : List Nat
deriving DecidableEq

instance : Inhabited Bundle := ⟨⟨0, "", 0, none, []⟩⟩

/-- Mutable state of the scanning loop in `Bundle::import`. -/
structure ScanState where
  bundleStart : Bool
  name : String
  collection : Option Nat
  updated : Nat
  items : List Nat
deriving DecidableEq

/-- One iteration of the scanning loop of `Bundle::import` (the body of
the `for data in …captures_iter…` loop): process the line's match; the
second component is `true` exactly when a repeated `bundle` directive
breaks the loop (leaving the state untouched). -/
def stepLine (pd : String → Option Nat) (st : ScanState) (l : List Char) : ScanState × Bool :=
  match matchLine l with
  | some (Tok.directive key val) =>
    if key = "bundle" then
      if st.bundleStart then (st, true)
      else ({ st with bundleStart := true }, false)
    else
      match val with
      | none => (st, false)
      | some v =>
        if key = "name" then ({ st with name := v }, false)
        else if key = "collection" then
          match parseU64 v with
          | some n => ({ st with collection := some n }, false)
          | none => (st, false)
        else if key = "updated" then
          match pd v with
          | some t => ({ st with updated := t }, false)
          | none => (st, false)
        else (st, false)
  | some (Tok.item ds) =>
    match parseU64Chars ds with
    | some n => ({ st with items := st.items ++ [n] }, false)
    | none => (st, false)
  | none => (st, false)

/-- The scanning loop of `Bundle::import` over the captures iterator
(second component `true` means the loop was broken by a repeated
`bundle` directive). -/
def scanLines (pd : String → Option Nat) : List (List Char) → ScanState → ScanState × Bool
  | [], st => (st, false)
  | l :: ls, st =>
    let r := stepLine pd st l
    if r.2 then (r.1, true) else scanLines pd ls r.1

/-- External collaborators and ambient values used by `Bundle::import`:
the current time (`chrono::Utc::now()`), RFC-2822 parsing
(`chrono::DateTime::parse_from_rfc2822`), the Steam collection lookup
(`steam!().fetch_collection_items`) and the freshly allocated id
(`BUNDLES.lock().id()`). -/
structure ImportEnv where
  now : Nat
  parseDate : String → Option Nat
  fetch : Nat → Option (List Nat)
  freshId : Nat

/-- Initial scan state of `Bundle::import`. -/
def initState (env : ImportEnv) : ScanState :=
  { bundleStart := false, name := "", collection := none, updated := env.now, items := [] }

/-- Rust `u64::cmp` (the comparator used by `Vec::binary_search` on item
lists). -/
def ordCmpNat (a b : Nat) : Ordering :=
  if a < b then Ordering.lt else if a = b then Ordering.eq else Ordering.gt

/-- The comparator of `impl Ord for Bundle`: compare by `updated` only. -/
def bundleCmp (a b : Bundle) : Ordering := ordCmpNat a.updated b.updated

/-- Core loop of Rust `slice::binary_search_by`, fuelled: at each step
`mid = left + (right - left) / 2`; `Less` moves `left` past `mid`,
`Greater` moves `right` down to `mid`, `Equal` returns `Ok mid`; when the
interval empties the result is `Err left`. -/
def bsAux {α : Type} [Inhabited α] (f : α → Ordering) (xs : List α) :
    Nat → Nat → Nat → Except Nat Nat
  | 0, left, _ => Except.error left
  | fuel + 1, left, right =>
    if left < right then
      let mid := left + (right - left) / 2
      match f (xs.getD mid default) with
      | Ordering.lt => bsAux f xs fuel (mid + 1) right
      | Ordering.gt => bsAux f xs fuel left mid
      | Ordering.eq => Except.ok mid
    else Except.error left

/-- Rust `slice::binary_search_by` with comparator `f` (the comparator
receives the probed element; the target is baked into `f`). -/
def binarySearchBy {α : Type} [Inhabited α] (f : α → Ordering) (xs : List α) : Except Nat Nat :=
  bsAux f xs (xs.length + 1) 0 xs.length

/-- The collection diff loop of `Bundle::import` (lines 133–149): for
each remote child in order, binary-search the item list; on `Ok pos`
remove the item and append it to `include`, on `Err` append it to
`exclude`.  Returns the final items, include and exclude lists. -/
def runDiff : List Nat → List Nat → List Nat → List Nat → List Nat × List Nat × List Nat
  | items, [], inc, exc => (items, inc, exc)
  | items, c :: rest, inc, exc =>
    match binarySearchBy (fun a => ordCmpNat a c) items with
    | Except.ok pos => runDiff (items.eraseIdx pos) rest (inc ++ [c]) exc
    | Except.error _ => runDiff items rest inc (exc ++ [c])

/-- The post-scan half of `Bundle::import` (lines 129–158): fail with
`NoItemsFound` on an empty item list, otherwise attach the optional
collection link, enriching it via the remote lookup when available, and
assemble the bundle with a freshly allocated id. -/
def buildBundle (env : ImportEnv) (st : ScanState) : Except BundleError Bundle :=
  if st.items = [] then Except.error BundleError.NoItemsFound
  else
    match st.collection with
    | none => Except.ok ⟨env.freshId, st.name, st.updated, none, st.items⟩
    | some cid =>
      match env.fetch cid with
      | none => Except.ok ⟨env.freshId, st.name, st.updated, some ⟨cid, [], []⟩, st.items⟩
      | some children =>
        let r := runDiff st.items children [] []
        Except.ok ⟨env.freshId, st.name, st.updated, some ⟨cid, r.2.1, r.2.2⟩, r.1⟩

/-- `Bundle::import` on a pre-split list of lines: run the scanning loop
from the initial state, then build the bundle. -/
def importLines (env : ImportEnv) (lines : List (List Char)) : Except BundleError Bundle :=
  buildBundle env (scanLines env.parseDate lines (initState env)).1

/-- `Bundle::import` on raw source text. -/
def Bundle.importSrc (env : ImportEnv) (src : String) : Except BundleError Bundle :=
  importLines env (splitLines src.data)

/-- Decimal digits of `n`, fuelled recursion mirroring the standard
decimal rendering used by Rust's `u64` `Display`. -/
def natToDecAux : Nat → Nat → List Char
  | _, 0 => []
  | 0, _ + 1 => []
  | fuel + 1, n + 1 => natToDecAux fuel ((n + 1) / 10) ++ [Nat.digitChar ((n + 1) % 10)]

/-- Decimal rendering of a natural number (Rust `to_string` on `u64`). -/
def natToDec (n : Nat) : List Char := if n = 0 then ['0'] else natToDecAux n n

/-- One item chunk of `Bundle::export`: `"<id>"`, then — only when the
caller supplied a name for this id — a comment and a newline.  The
missing newline for unnamed items is exactly what the Rust code writes. -/
def itemChunk (names : Nat → Option String) (i : Nat) : List Char :=
  quoteChar :: natToDec i ++ [quoteChar] ++
    (match names i with
     | some nm => (" -- ").data ++ nm.data ++ ['\n']
     | none => [])

/-- The characters produced by `Bundle::export` (lines 161–202); `toRfc`
stands for `chrono`'s `to_rfc2822` rendering of the timestamp. -/
def exportChars (toRfc : Nat → String) (b : Bundle) (names : Nat → Option String)
    (cname : Option String) : List Char :=
  ("-- generated by gmpublisher\n").data ++
  ("-- https://gmpublisher.download\n").data ++
  ("--# bundle\n").data ++
  ("--# name ").data ++ b.name.data ++ ['\n'] ++
  (match b.collection with
   | some c => ("--# collection ").data ++ natToDec c.id ++ ['\n']
   | none => []) ++
  ("--# updated ").data ++ (toRfc b.updated).data ++ ['\n'] ++
  ("for _,w in ipairs(\x7b\n\n").data ++
  (b.items.map (itemChunk names)).flatten ++
  (match b.collection with
   | some c =>
     ("\n-- Collection\n").data ++
     (match cname with
      | some cn => ("-- ").data ++ cn.data ++ ['\n']
      | none => []) ++
     ("-- https://steamcommunity.com/sharedfiles/filedetails/?id=").data ++
       natToDec c.id ++ ['\n'] ++
     (c.include'.map (itemChunk names)).flatten
   | none => []) ++
  ("\n\x7d) do resource.AddWorkshop(w) end").data

/-- `Bundle::export` as a string. -/
def Bundle.exportSrc (toRfc : Nat → String) (b : Bundle) (names : Nat → Option String)
    (cname : Option String) : String :=
  String.mk (exportChars toRfc b names cname)

/-- The bundle store (`struct Bundles`): the `saved` sequence and the id
counter. -/
structure Bundles where
  saved : List Bundle
  id : Nat
deriving DecidableEq

/-- The `update_bundle` command: persist the bundle (the Boolean records
whether `File::create` and `bincode::serialize_into` succeeded — both
happen before any in-memory mutation), then insert-or-replace in `saved`
via binary search with the `updated`-based comparator. -/
def update_bundle (persistOk : Bool) (st : Bundles) (b : Bundle) : Bundles × Bool :=
  if persistOk then
    match binarySearchBy (fun a => bundleCmp a b) st.saved with
    | Except.ok pos => ({ st with saved := st.saved.set pos b }, true)
    | Except.error pos => ({ st with saved := st.saved.insertIdx pos b }, true)
  else (st, false)

/-- The `new_bundle` command: bump the id counter, optionally resolve the
base collection (`check_bundle_collection` with children, whose resolved
member list seeds `include`), persist, and push the new bundle at the end
of `saved`.  `checkColl` is the remote lookup; `persistErr` is the
outcome of `std::fs::write`/serialization. -/
def new_bundle (checkColl : Nat → Except BundleError (List Nat)) (persistErr : Option BundleError)
    (now : Nat) (st : Bundles) (nm : String) (basedOn : Option Nat) :
    Bundles × Except BundleError Bundle :=
  let st1 : Bundles := { st with id := st.id + 1 }
  let go : Option BundleCollectionLink → Bundles × Except BundleError Bundle := fun coll =>
    let b : Bundle := ⟨st1.id, nm, now, coll, []⟩
    match persistErr with
    | some e => (st1, Except.error e)
    | none => ({ st1 with saved := st1.saved ++ [b] }, Except.ok b)
  match basedOn with
  | some cid =>
    match checkColl cid with
    | Except.error e => (st1, Except.error e)
    | Except.ok its => go (some ⟨cid, its, []⟩)
  | none => go none

/-- The include list of a bundle's collection link, empty when no link is
present. -/
def inclOf (b : Bundle) : List Nat :=
  match b.collection with
  | some c => c.include'
  | none => []

/-- A string with no embedded newline. -/
def noNL (s : String) : Bool := !(s.data.contains '\n')

/-- A bundle name that survives the directive grammar: no newline and no
leading space/tab. -/
def nameOk (s : String) : Bool :=
  noNL s && (match s.data with | [] => true | c :: _ => !(isWs c))

/-- Every listed id has a caller-supplied name without newlines. -/
def namesOk (names : Nat → Option String) (l : List Nat) : Bool :=
  l.all (fun i => match names i with | some s => noNL s | none => false)

/-- The optional collection title contains no newline. -/
def cnameOk : Option String → Bool
  | some s => noNL s
  | none => true

/-- All listed ids fit in 64 bits. -/
def idsOk (l : List Nat) : Bool := l.all (fun i => decide (i < 18446744073709551616))

/-- The collection id, when present, fits in 64 bits. -/
def collOk (b : Bundle) : Bool :=
  match b.collection with
  | some c => decide (c.id < 18446744073709551616)
  | none => true

/-- Sortedness of the store by the `updated` timestamp. -/
def sortedByUpdated (l : List Bundle) : Prop :=
  l.Pairwise (fun a b => a.updated ≤ b.updated)

instance (l : List Bundle) : Decidable (sortedByUpdated l) := by
  unfold sortedByUpdated
  infer_instance

/-- Decidable equality of results, for concrete evaluations. -/
instance {e a : Type} [DecidableEq e] [DecidableEq a] : DecidableEq (Except e a) := fun x y =>
  match x, y with
  | Except.ok v, Except.ok w =>
    if h : v = w then Decidable.isTrue (by rw [h])
    else Decidable.isFalse (by intro hc; cases hc; exact h rfl)
  | Except.error v, Except.error w =>
    if h : v = w then Decidable.isTrue (by rw [h])
    else Decidable.isFalse (by intro hc; cases hc; exact h rfl)
  | Except.ok _, Except.error _ => Decidable.isFalse (by intro hc; cases hc)
  | Except.error _, Except.ok _ => Decidable.isFalse (by intro hc; cases hc)

/-- A line whose match is the `bundle` marker directive. -/
def isBundleMarker (l : List Char) : Bool :=
  match matchLine l with
  | some (Tok.directive key _) => key == "bundle"
  | _ => false

/-! Comparator facts for the embedded `u64` ordering. -/

/-- The comparator returns `eq` exactly on equal values. -/
theorem ordCmpNat_eq_iff {a b : Nat} : ordCmpNat a b = Ordering.eq ↔ a = b := by
  unfold ordCmpNat
  split_ifs with h1 h2 <;> simp <;> omega

/-- The comparator returns `lt` exactly when the probe is smaller. -/
theorem ordCmpNat_lt_iff {a b : Nat} : ordCmpNat a b = Ordering.lt ↔ a < b := by
  unfold ordCmpNat
  split_ifs with h1 h2 <;> simp <;> omega

/-- The comparator returns `gt` exactly when the probe is larger. -/
theorem ordCmpNat_gt_iff {a b : Nat} : ordCmpNat a b = Ordering.gt ↔ b < a := by
  unfold ordCmpNat
  split_ifs with h1 h2 <;> simp <;> omega

/-! Specification of the fuelled Rust binary search. -/

/-- Loop invariant of `slice::binary_search_by`: with enough fuel, an
`Ok` result points at an element the comparator calls equal, and an
`Err` position has strictly smaller comparator results on its left and
strictly larger ones from it on. -/
theorem bsAux_spec {α : Type} [Inhabited α] (f : α → Ordering) (xs : List α)
    (fuel : Nat) : ∀ left right, left ≤ right → right ≤ xs.length → right - left ≤ fuel →
    (left = 0 ∨ f (xs.getD (left - 1) default) = Ordering.lt) →
    (right = xs.length ∨ f (xs.getD right default) = Ordering.gt) →
    (match bsAux f xs fuel left right with
     | Except.ok pos => pos < xs.length ∧ f (xs.getD pos default) = Ordering.eq
     | Except.error pos => left ≤ pos ∧ pos ≤ right ∧
         (pos = 0 ∨ f (xs.getD (pos - 1) default) = Ordering.lt) ∧
         (pos = xs.length ∨ f (xs.getD pos default) = Ordering.gt)) := by
  induction fuel with
  | zero =>
    intro left right hlr hrl hf hL hR
    have h : left = right := by omega
    subst h
    exact ⟨le_refl _, le_refl _, hL, hR⟩
  | succ fuel ih =>
    intro left right hlr hrl hf hL hR
    by_cases h : left < right
    · have hmlt : left + (right - left) / 2 < right := by omega
      have hmge : left ≤ left + (right - left) / 2 := by omega
      simp only [bsAux, if_pos h]
      cases hc : f (xs.getD (left + (right - left) / 2) default) with
      | lt =>
        have h2 := ih (left + (right - left) / 2 + 1) right (by omega) hrl (by omega)
          (Or.inr (by simpa using hc)) hR
        cases hb : bsAux f xs fuel (left + (right - left) / 2 + 1) right with
        | ok pos => rw [hb] at h2; exact h2
        | error pos =>
          rw [hb] at h2
          obtain ⟨ha, hb2, hc2, hd2⟩ := h2
          exact ⟨by omega, hb2, hc2, hd2⟩
      | gt =>
        have h2 := ih left (left + (right - left) / 2) (by omega) (by omega) (by omega)
          hL (Or.inr hc)
        cases hb : bsAux f xs fuel left (left + (right - left) / 2) with
        | ok pos => rw [hb] at h2; exact h2
        | error pos =>
          rw [hb] at h2
          obtain ⟨ha, hb2, hc2, hd2⟩ := h2
          exact ⟨ha, by omega, hc2, hd2⟩
      | eq => exact ⟨by omega, hc⟩
    · have heq : left = right := by omega
      subst heq
      simp only [bsAux, if_neg h]
      exact ⟨le_refl _, le_refl _, hL, hR⟩

/-- Result specification of `binarySearchBy` on an arbitrary list. -/
theorem binarySearchBy_spec {α : Type} [Inhabited α] (f : α → Ordering) (xs : List α) :
    match binarySearchBy f xs with
    | Except.ok pos => pos < xs.length ∧ f (xs.getD pos default) = Ordering.eq
    | Except.error pos => pos ≤ xs.length ∧
        (pos = 0 ∨ f (xs.getD (pos - 1) default) = Ordering.lt) ∧
        (pos = xs.length ∨ f (xs.getD pos default) = Ordering.gt) := by
  have h := bsAux_spec f xs (xs.length + 1) 0 xs.length (Nat.zero_le _) (le_refl _)
    (by omega) (Or.inl rfl) (Or.inl rfl)
  unfold binarySearchBy
  cases hb : bsAux f xs (xs.length + 1) 0 xs.length with
  | ok pos => rw [hb] at h; exact h
  | error pos => rw [hb] at h; exact ⟨h.2.1, h.2.2⟩

/-- Specification of `binarySearchBy` with a comparator induced by a
monotone projection `g`, on a list sorted by `g`: `Ok` finds an element
with projection `k`, `Err` certifies that no element projects to `k`,
with all elements left of the insertion point strictly below and the
rest strictly above. -/
theorem binarySearch_proj_sorted {α : Type} [Inhabited α] (g : α → Nat) (k : Nat) (xs : List α)
    (hs : xs.Pairwise (fun a b => g a ≤ g b)) :
    match binarySearchBy (fun a => ordCmpNat (g a) k) xs with
    | Except.ok pos => pos < xs.length ∧ g (xs.getD pos default) = k
    | Except.error pos => pos ≤ xs.length ∧ (∀ a ∈ xs, g a ≠ k) ∧
        (∀ i, i < pos → i < xs.length → g (xs.getD i default) < k) ∧
        (∀ i, pos ≤ i → i < xs.length → k < g (xs.getD i default)) := by
  have h := binarySearchBy_spec (fun a => ordCmpNat (g a) k) xs
  have hs' := List.pairwise_iff_getElem.mp hs
  cases hb : binarySearchBy (fun a => ordCmpNat (g a) k) xs with
  | ok pos =>
    rw [hb] at h
    exact ⟨h.1, ordCmpNat_eq_iff.mp h.2⟩
  | error pos =>
    rw [hb] at h
    obtain ⟨hlen, hL, hR⟩ := h
    have hlt : ∀ i, i < pos → i < xs.length → g (xs.getD i default) < k := by
      intro i hip hil
      rcases hL with h0 | hL
      · omega
      · have hplt : pos - 1 < xs.length := by omega
        have hlast : g (xs.getD (pos - 1) default) < k := ordCmpNat_lt_iff.mp hL
        by_cases hi : i = pos - 1
        · rw [hi]
          exact hlast
        · have hij : i < pos - 1 := by omega
          have hle := hs' i (pos - 1) hil hplt hij
          rw [List.getD_eq_getElem xs default hil]
          rw [List.getD_eq_getElem xs default hplt] at hlast
          omega
    have hgt : ∀ i, pos ≤ i → i < xs.length → k < g (xs.getD i default) := by
      intro i hip hil
      rcases hR with h0 | hR
      · omega
      · have hplt : pos < xs.length := by omega
        have hfirst : k < g (xs.getD pos default) := ordCmpNat_gt_iff.mp hR
        by_cases hi : i = pos
        · rw [hi]
          exact hfirst
        · have hij : pos < i := by omega
          have hle := hs' pos i hplt hil hij
          rw [List.getD_eq_getElem xs default hil]
          rw [List.getD_eq_getElem xs default hplt] at hfirst
          omega
    refine ⟨hlen, ?_, hlt, hgt⟩
    intro a ha hak
    obtain ⟨i, hil, hia⟩ := List.mem_iff_getElem.mp ha
    by_cases hip : i < pos
    · have hq := hlt i hip hil
      rw [List.getD_eq_getElem xs default hil, hia] at hq
      omega
    · have hq := hgt i (by omega) hil
      rw [List.getD_eq_getElem xs default hil, hia] at hq
      omega

/-- An `Ok` result of the item binary search points at an occurrence of
the probed value, on any list (no sortedness needed). -/
theorem binarySearch_nat_ok (xs : List Nat) (k pos : Nat)
    (h : binarySearchBy (fun a => ordCmpNat a k) xs = Except.ok pos) :
    pos < xs.length ∧ xs.getD pos 0 = k := by
  have hspec := binarySearchBy_spec (fun a => ordCmpNat a k) xs
  rw [h] at hspec
  exact ⟨hspec.1, ordCmpNat_eq_iff.mp hspec.2⟩

/-- An `Err` result of the item binary search on a sorted list certifies
that the probed value does not occur. -/
theorem binarySearch_nat_not_mem (xs : List Nat) (k pos : Nat)
    (hs : xs.Pairwise (fun a b => a ≤ b))
    (h : binarySearchBy (fun a => ordCmpNat a k) xs = Except.error pos) :
    k ∉ xs := by
  have hspec := binarySearch_proj_sorted id k xs (by simpa using hs)
  simp only [id_eq] at hspec
  rw [h] at hspec
  intro hk
  exact hspec.2.1 k hk rfl

/-! List facts used by the diff engine and the store. -/

/-- A list is a permutation of the element at `pos` consed onto the list
with index `pos` erased. -/
theorem perm_cons_eraseIdx {α : Type} (xs : List α) (pos : Nat) (h : pos < xs.length) :
    List.Perm xs (xs[pos] :: xs.eraseIdx pos) := by
  conv_lhs => rw [← List.take_append_drop pos xs, List.drop_eq_getElem_cons h]
  rw [List.eraseIdx_eq_take_drop_succ]
  exact List.perm_middle

/-- Erasing one occurrence of a different element does not change
membership. -/
theorem mem_eraseIdx_of_ne {α : Type} (xs : List α) (pos : Nat) (h : pos < xs.length)
    (d : α) (hne : d ≠ xs[pos]) : d ∈ xs.eraseIdx pos ↔ d ∈ xs := by
  have hperm := perm_cons_eraseIdx xs pos h
  constructor
  · intro hd
    exact hperm.mem_iff.mpr (List.mem_cons_of_mem _ hd)
  · intro hd
    rcases List.mem_cons.mp (hperm.mem_iff.mp hd) with h1 | h1
    · exact absurd h1 hne
    · exact h1

/-- `insertIdx` is insertion between `take` and `drop`. -/
theorem insertIdx_eq_take_cons_drop {α : Type} (l : List α) (pos : Nat) (x : α)
    (h : pos ≤ l.length) : l.insertIdx pos x = l.take pos ++ x :: l.drop pos := by
  induction l generalizing pos with
  | nil =>
    have h0 : pos = 0 := by simpa using h
    subst h0
    simp [List.insertIdx]
  | cons a l ih =>
    cases pos with
    | zero => simp [List.insertIdx_zero]
    | succ n =>
      simp only [List.insertIdx_succ_cons, List.take_succ_cons, List.drop_succ_cons,
        List.cons_append]
      rw [ih n (by simpa using h)]

/-! Permutation and partition facts about the collection diff loop. -/

/-- Every diff step moves mass between `items` and `include` or only
grows `exclude`: the concatenation of the final item list and the final
include list is a permutation of the initial concatenation. -/
theorem runDiff_perm : ∀ (children items inc exc : List Nat),
    List.Perm ((runDiff items children inc exc).1 ++ (runDiff items children inc exc).2.1)
      (items ++ inc) := by
  intro children
  induction children with
  | nil => intro items inc exc; simp [runDiff]
  | cons c rest ih =>
    intro items inc exc
    cases hb : binarySearchBy (fun a => ordCmpNat a c) items with
    | ok pos =>
      obtain ⟨hlt, hval⟩ := binarySearch_nat_ok items c pos hb
      simp only [runDiff, hb]
      have h1 := ih (items.eraseIdx pos) (inc ++ [c]) exc
      refine h1.trans ?_
      have hperm := perm_cons_eraseIdx items pos hlt
      rw [List.getD_eq_getElem items 0 hlt] at hval
      rw [hval] at hperm
      have s1 : List.Perm (items.eraseIdx pos ++ (inc ++ [c]))
          (c :: (items.eraseIdx pos ++ inc)) := by
        rw [← List.append_assoc]
        exact List.perm_append_singleton c _
      have s2 : List.Perm (c :: (items.eraseIdx pos ++ inc)) (items ++ inc) := by
        rw [← List.cons_append]
        exact (hperm.symm).append_right inc
      exact s1.trans s2
    | error pos =>
      simp only [runDiff, hb]
      exact ih items inc (exc ++ [c])

/-- The diff loop classifies each remote child by membership in the
initial (sorted) item list: `include` receives exactly the members, in
remote order, and `exclude` exactly the non-members, in remote order. -/
theorem runDiff_filter : ∀ (children items inc exc : List Nat),
    items.Pairwise (fun a b => a ≤ b) → children.Nodup →
    (runDiff items children inc exc).2.1 = inc ++ children.filter (fun c => decide (c ∈ items)) ∧
    (runDiff items children inc exc).2.2 =
      exc ++ children.filter (fun c => !decide (c ∈ items)) := by
  intro children
  induction children with
  | nil =>
    intro items inc exc _ _
    simp [runDiff]
  | cons c rest ih =>
    intro items inc exc hs hnd
    have hndr : rest.Nodup := hnd.of_cons
    have hcr : c ∉ rest := (List.nodup_cons.mp hnd).1
    cases hb : binarySearchBy (fun a => ordCmpNat a c) items with
    | ok pos =>
      obtain ⟨hlt, hval⟩ := binarySearch_nat_ok items c pos hb
      rw [List.getD_eq_getElem items 0 hlt] at hval
      have hcm : c ∈ items := by
        rw [← hval]
        exact List.getElem_mem hlt
      have hsorted : (items.eraseIdx pos).Pairwise (fun a b => a ≤ b) :=
        hs.sublist (List.eraseIdx_sublist items pos)
      have hmem : ∀ d ∈ rest,
          (decide (d ∈ items.eraseIdx pos)) = (decide (d ∈ items)) := by
        intro d hd
        have hdc : d ≠ c := fun he => hcr (he ▸ hd)
        have hiff := mem_eraseIdx_of_ne items pos hlt d (hval ▸ hdc)
        by_cases hdm : d ∈ items
        · simp [hdm, hiff.mpr hdm]
        · have hdm2 : d ∉ items.eraseIdx pos := fun hc2 => hdm (hiff.mp hc2)
          simp [hdm, hdm2]
      obtain ⟨h1, h2⟩ := ih (items.eraseIdx pos) (inc ++ [c]) exc hsorted hndr
      simp only [runDiff, hb]
      constructor
      · rw [h1, List.filter_congr hmem]
        simp [List.filter_cons, hcm]
      · rw [h2]
        have hmem2 : ∀ d ∈ rest,
            (!decide (d ∈ items.eraseIdx pos)) = (!decide (d ∈ items)) := by
          intro d hd
          rw [hmem d hd]
        rw [List.filter_congr hmem2]
        simp [List.filter_cons, hcm]
    | error pos =>
      have hcm : c ∉ items := binarySearch_nat_not_mem items c pos hs hb
      obtain ⟨h1, h2⟩ := ih items inc (exc ++ [c]) hs hndr
      simp only [runDiff, hb]
      constructor
      · rw [h1]
        simp [List.filter_cons, hcm]
      · rw [h2]
        simp [List.filter_cons, hcm]

/-- Inserting a bundle between a prefix of smaller-or-equal timestamps
and a suffix of larger-or-equal timestamps keeps the sequence sorted. -/
theorem sorted_take_cons_drop (l : List Bundle) (b : Bundle) (pos d : Nat)
    (hpd : pos ≤ d) (hs : sortedByUpdated l)
    (hL : ∀ i, (h : i < l.length) → i < pos → l[i].updated ≤ b.updated)
    (hR : ∀ i, (h : i < l.length) → d ≤ i → b.updated ≤ l[i].updated) :
    sortedByUpdated (l.take pos ++ b :: l.drop d) := by
  unfold sortedByUpdated at hs ⊢
  have hs' := List.pairwise_iff_getElem.mp hs
  rw [List.pairwise_append]
  refine ⟨hs.sublist (List.take_sublist pos l), ?_, ?_⟩
  · rw [List.pairwise_cons]
    refine ⟨?_, hs.sublist (List.drop_sublist d l)⟩
    intro a ha
    obtain ⟨i, hi, hia⟩ := List.mem_iff_getElem.mp ha
    have hlen : d + i < l.length := by
      simp only [List.length_drop] at hi
      omega
    rw [List.getElem_drop] at hia
    rw [← hia]
    exact hR (d + i) hlen (by omega)
  · intro a ha y hy
    obtain ⟨i, hi, hia⟩ := List.mem_iff_getElem.mp ha
    have hip : i < pos ∧ i < l.length := by
      simp only [List.length_take] at hi
      omega
    rw [List.getElem_take] at hia
    rcases List.mem_cons.mp hy with hyb | hyd
    · rw [← hia, hyb]
      exact hL i hip.2 hip.1
    · obtain ⟨k, hk, hky⟩ := List.mem_iff_getElem.mp hyd
      have hklen : d + k < l.length := by
        simp only [List.length_drop] at hk
        omega
      rw [List.getElem_drop] at hky
      rw [← hia, ← hky]
      exact hs' i (d + k) hip.2 hklen (by omega)

/-- Replacing an entry whose `updated` equals the new bundle's keeps the
store sorted. -/
theorem sortedByUpdated_set (l : List Bundle) (pos : Nat) (b : Bundle)
    (hpos : pos < l.length) (heq : (l.getD pos default).updated = b.updated)
    (hs : sortedByUpdated l) : sortedByUpdated (l.set pos b) := by
  rw [List.set_eq_take_cons_drop b hpos]
  rw [List.getD_eq_getElem l default hpos] at heq
  have hs' := List.pairwise_iff_getElem.mp hs
  apply sorted_take_cons_drop l b pos (pos + 1) (by omega) hs
  · intro i h hi
    rw [← heq]
    exact hs' i pos h hpos hi
  · intro i h hi
    rw [← heq]
    exact hs' pos i hpos h (by omega)

/-- Inserting at an `Err` position of the timestamp binary search keeps
the store sorted. -/
theorem sortedByUpdated_insertIdx (l : List Bundle) (pos : Nat) (b : Bundle)
    (hpos : pos ≤ l.length) (hs : sortedByUpdated l)
    (hL : ∀ i, (h : i < l.length) → i < pos → l[i].updated < b.updated)
    (hR : ∀ i, (h : i < l.length) → pos ≤ i → b.updated < l[i].updated) :
    sortedByUpdated (l.insertIdx pos b) := by
  rw [insertIdx_eq_take_cons_drop l pos b hpos]
  apply sorted_take_cons_drop l b pos pos (le_refl _) hs
  · intro i h hi
    exact (hL i h hi).le
  · intro i h hi
    exact (hR i h hi).le

/-- The comparator passed to the store's binary search is the
`updated`-projection comparator. -/
theorem bundleSearch_eq (b : Bundle) (l : List Bundle) :
    binarySearchBy (fun a => bundleCmp a b) l =
      binarySearchBy (fun a => ordCmpNat a.updated b.updated) l := rfl

/-- C3 (amended): on a store sorted by `updated`, `update_bundle`
replaces in place exactly when the binary search — which compares by the
`updated` timestamp, not by id — returns `Ok` at a position holding an
entry with the same `updated`; otherwise no saved entry has the new
bundle's `updated` and it is inserted at the `Err` position. -/
theorem update_bundle_upsert (st : Bundles) (b : Bundle) (hs : sortedByUpdated st.saved) :
    match binarySearchBy (fun a => bundleCmp a b) st.saved with
    | Except.ok pos => pos < st.saved.length ∧
        (st.saved.getD pos default).updated = b.updated ∧
        (update_bundle true st b).1.saved = st.saved.set pos b ∧
        (update_bundle true st b).2 = true
    | Except.error pos => pos ≤ st.saved.length ∧
        (∀ a ∈ st.saved, a.updated ≠ b.updated) ∧
        (update_bundle true st b).1.saved = st.saved.insertIdx pos b ∧
        (update_bundle true st b).2 = true := by
  have h := binarySearch_proj_sorted Bundle.updated b.updated st.saved hs
  rw [← bundleSearch_eq b st.saved] at h
  cases hb : binarySearchBy (fun a => bundleCmp a b) st.saved with
  | ok pos =>
    rw [hb] at h
    refine ⟨h.1, h.2, ?_, ?_⟩ <;> simp [update_bundle, hb]
  | error pos =>
    rw [hb] at h
    refine ⟨h.1, h.2.1, ?_, ?_⟩ <;> simp [update_bundle, hb]

def stW3 : Bundles := ⟨[⟨1, "a", 10, none, []⟩], 1⟩

def bW3 : Bundle := ⟨2, "b", 15, none, []⟩

/-- Witness for `update_bundle_upsert` at a concrete store. -/
theorem update_bundle_upsert_witness :
    (match binarySearchBy (fun a => bundleCmp a bW3) stW3.saved with
     | Except.ok pos => pos < stW3.saved.length ∧
         (stW3.saved.getD pos default).updated = bW3.updated ∧
         (update_bundle true stW3 bW3).1.saved = stW3.saved.set pos bW3 ∧
         (update_bundle true stW3 bW3).2 = true
     | Except.error pos => pos ≤ stW3.saved.length ∧
         (∀ a ∈ stW3.saved, a.updated ≠ bW3.updated) ∧
         (update_bundle true stW3 bW3).1.saved = stW3.saved.insertIdx pos bW3 ∧
         (update_bundle true stW3 bW3).2 = true) :=
  update_bundle_upsert stW3 bW3 (by decide)

def stC3 : Bundles := ⟨[⟨1, "a", 10, none, []⟩], 1⟩

def bC3 : Bundle := ⟨1, "a2", 20, none, []⟩

/-- C3 counterexample: the store holds an entry with the same id as the
incoming bundle, yet — the binary search comparing by `updated` — the
search returns `Err` and `update_bundle` inserts a duplicate instead of
replacing the entry in place: the store grows from one entry to two. -/
theorem update_bundle_same_id_not_replaced :
    stC3.saved.length = 1 ∧ (stC3.saved.getD 0 default).id = bC3.id ∧
    binarySearchBy (fun a => bundleCmp a bC3) stC3.saved = Except.error 1 ∧
    (update_bundle true stC3 bC3).1.saved.length = 2 := by decide

/-- A single `update_bundle` call preserves sortedness by `updated`. -/
theorem update_bundle_preserves_sorted (p : Bool) (st : Bundles) (b : Bundle)
    (hs : sortedByUpdated st.saved) : sortedByUpdated ((update_bundle p st b).1.saved) := by
  cases p with
  | false => simpa [update_bundle] using hs
  | true =>
    have h := binarySearch_proj_sorted Bundle.updated b.updated st.saved hs
    rw [← bundleSearch_eq b st.saved] at h
    cases hb : binarySearchBy (fun a => bundleCmp a b) st.saved with
    | ok pos =>
      rw [hb] at h
      simp only [update_bundle, if_pos, hb]
      exact sortedByUpdated_set st.saved pos b h.1 h.2 hs
    | error pos =>
      rw [hb] at h
      simp only [update_bundle, if_pos, hb]
      apply sortedByUpdated_insertIdx st.saved pos b h.1 hs
      · intro i hil hip
        have h2 := h.2.2.1 i hip hil
        rw [List.getD_eq_getElem st.saved default hil] at h2
        exact h2
      · intro i hil hip
        have h2 := h.2.2.2 i hip hil
        rw [List.getD_eq_getElem st.saved default hil] at h2
        exact h2

/-- C7: starting from a store sorted by `updated`, any sequence of
`update_bundle` (upsert) calls — each either failing at persistence or
replacing/inserting via the binary search — leaves `saved` sorted by
`updated` ascending. -/
theorem store_sorted_after_upserts (ops : List (Bool × Bundle)) (st : Bundles)
    (hs : sortedByUpdated st.saved) :
    sortedByUpdated ((ops.foldl (fun s op => (update_bundle op.1 s op.2).1) st).saved) := by
  induction ops generalizing st with
  | nil => simpa using hs
  | cons op rest ih =>
    simp only [List.foldl_cons]
    exact ih _ (update_bundle_preserves_sorted op.1 st op.2 hs)

/-- Witness for `store_sorted_after_upserts` on a concrete run. -/
theorem store_sorted_after_upserts_witness :
    sortedByUpdated (([(true, bW3), (true, bC3), (false, bW3)].foldl
      (fun s op => (update_bundle op.1 s op.2).1) stW3).saved) :=
  store_sorted_after_upserts [(true, bW3), (true, bC3), (false, bW3)] stW3 (by decide)

/-- C8: when persistence (`File::create` or `bincode::serialize_into`)
fails, `update_bundle` reports `false` to the caller and the in-memory
store is left exactly as it was — the table is only mutated after the
on-disk write has succeeded, which is mirrored by the placement of the
persistence outcome before any mutation in `update_bundle`. -/
theorem update_bundle_failed_persist (st : Bundles) (b : Bundle) :
    update_bundle false st b = (st, false) := rfl

/-- C10: every successful `new_bundle` call pushes the freshly created
bundle at the end of `saved` (a plain `push`, not a sorted insertion),
irrespective of how its `updated` timestamp (`now`, arbitrary here)
compares with the stored entries. -/
theorem new_bundle_appends (checkColl : Nat → Except BundleError (List Nat)) (now : Nat)
    (st : Bundles) (nm : String) (basedOn : Option Nat)
    (h : match basedOn with
         | some cid => ∃ its, checkColl cid = Except.ok its
         | none => True) :
    match (new_bundle checkColl none now st nm basedOn).2 with
    | Except.ok b => (new_bundle checkColl none now st nm basedOn).1.saved = st.saved ++ [b] ∧
        (new_bundle checkColl none now st nm basedOn).1.saved.getLast? = some b ∧
        b.updated = now
    | Except.error _ => False := by
  cases basedOn with
  | none =>
    simp [new_bundle, List.getLast?_concat]
  | some cid =>
    obtain ⟨its, hc⟩ := h
    simp [new_bundle, hc, List.getLast?_concat]

def ccW : Nat → Except BundleError (List Nat) := fun _ => Except.ok [4]

/-- Witness for `new_bundle_appends` at a concrete store whose existing
entry has a later timestamp than the new bundle. -/
theorem new_bundle_appends_witness :
    (match (new_bundle ccW none 5 stW3 "nb" (some 9)).2 with
     | Except.ok b => (new_bundle ccW none 5 stW3 "nb" (some 9)).1.saved = stW3.saved ++ [b] ∧
         (new_bundle ccW none 5 stW3 "nb" (some 9)).1.saved.getLast? = some b ∧
         b.updated = 5
     | Except.error _ => False) :=
  new_bundle_appends ccW 5 stW3 "nb" (some 9) ⟨[4], rfl⟩

/-- Every remote child lands in exactly one of the two output lists. -/
def exactlyOnePartition (children inc exc : List Nat) : Prop :=
  ∀ c ∈ children, (c ∈ inc ∧ c ∉ exc) ∨ (c ∈ exc ∧ c ∉ inc)

/-- C5: on a sorted item list and a duplicate-free remote children
sequence, the diff pass sends each remote child found in the items into
`include` (removing one occurrence from the items) and each absent child
into `exclude` (items untouched), both in remote-children order, and
every remote child ends up in exactly one of the two lists. -/
theorem diff_partition (items children : List Nat)
    (hs : items.Pairwise (fun a b => a ≤ b)) (hnd : children.Nodup) :
    (runDiff items children [] []).2.1 = children.filter (fun c => decide (c ∈ items)) ∧
    (runDiff items children [] []).2.2 = children.filter (fun c => !decide (c ∈ items)) ∧
    List.Perm ((runDiff items children [] []).1 ++ (runDiff items children [] []).2.1) items ∧
    exactlyOnePartition children (runDiff items children [] []).2.1
      (runDiff items children [] []).2.2 := by
  obtain ⟨h1, h2⟩ := runDiff_filter children items [] [] hs hnd
  have hp := runDiff_perm children items [] []
  rw [List.nil_append] at h1 h2
  refine ⟨h1, h2, by simpa using hp, ?_⟩
  intro c hc
  by_cases hcm : c ∈ items
  · left
    constructor
    · rw [h1]
      simp [List.mem_filter, hc, hcm]
    · rw [h2]
      simp [List.mem_filter, hcm]
  · right
    constructor
    · rw [h2]
      simp [List.mem_filter, hc, hcm]
    · rw [h1]
      simp [List.mem_filter, hcm]

/-- Witness for `diff_partition` on a concrete diff. -/
theorem diff_partition_witness :
    (runDiff [1, 3, 5] [3, 4] [] []).2.1 = [3, 4].filter (fun c => decide (c ∈ [1, 3, 5])) ∧
    (runDiff [1, 3, 5] [3, 4] [] []).2.2 = [3, 4].filter (fun c => !decide (c ∈ [1, 3, 5])) ∧
    List.Perm ((runDiff [1, 3, 5] [3, 4] [] []).1 ++ (runDiff [1, 3, 5] [3, 4] [] []).2.1)
      [1, 3, 5] ∧
    exactlyOnePartition [3, 4] (runDiff [1, 3, 5] [3, 4] [] []).2.1
      (runDiff [1, 3, 5] [3, 4] [] []).2.2 :=
  diff_partition [1, 3, 5] [3, 4] (by decide) (by decide)

/-- Characterization of the post-scan bundle assembly: the only error is
`NoItemsFound`, raised exactly on an empty scanned item list; on success
the bundle keeps the scanned name, timestamp and collection id, and its
items plus include lists are a permutation of the scanned items. -/
theorem buildBundle_spec (env : ImportEnv) (st : ScanState) :
    match buildBundle env st with
    | Except.error e => e = BundleError.NoItemsFound ∧ st.items = []
    | Except.ok b => st.items ≠ [] ∧
        List.Perm (b.items ++ inclOf b) st.items ∧
        b.name = st.name ∧ b.updated = st.updated ∧ b.id = env.freshId ∧
        b.collection.map BundleCollectionLink.id = st.collection := by
  unfold buildBundle
  by_cases hit : st.items = []
  · rw [if_pos hit]
    exact ⟨rfl, hit⟩
  · rw [if_neg hit]
    cases hc : st.collection with
    | none =>
      dsimp only
      exact ⟨hit, by simp [inclOf], rfl, rfl, rfl, by simp⟩
    | some cid =>
      dsimp only
      cases hf : env.fetch cid with
      | none =>
        dsimp only
        exact ⟨hit, by simp [inclOf], rfl, rfl, rfl, by simp⟩
      | some children =>
        dsimp only
        refine ⟨hit, ?_, rfl, rfl, rfl, by simp⟩
        simpa [inclOf] using runDiff_perm children st.items [] []

/-- C2 (amended): `import` fails exactly with `NoItemsFound`, and does so
exactly when the scan collected no item literal before terminating; on
success the scanned items were non-empty and are preserved as the
permutation of `items` plus the collection's `include` list — the
returned `items` list itself can still be empty when the collection diff
moves every item into `include`. -/
theorem import_noItemsFound_iff (env : ImportEnv) (lines : List (List Char)) :
    match importLines env lines with
    | Except.error e => e = BundleError.NoItemsFound ∧
        (scanLines env.parseDate lines (initState env)).1.items = []
    | Except.ok b => (scanLines env.parseDate lines (initState env)).1.items ≠ [] ∧
        List.Perm (b.items ++ inclOf b)
          ((scanLines env.parseDate lines (initState env)).1.items) := by
  have h := buildBundle_spec env (scanLines env.parseDate lines (initState env)).1
  unfold importLines
  cases hb : buildBundle env (scanLines env.parseDate lines (initState env)).1 with
  | error e =>
    rw [hb] at h
    exact h
  | ok b =>
    rw [hb] at h
    exact ⟨h.1, h.2.1⟩

def envC2 : ImportEnv := ⟨0, fun _ => none, fun _ => some [5], 9⟩

def bundleC2 : Bundle := ⟨9, "", 0, some ⟨7, [5], []⟩, []⟩

/-- C2 counterexample: a text with one parseable item literal and a
collection directive, where the remote collection contains that very
item: import succeeds, yet the returned bundle's `items` list is empty —
the diff moved the only item into `include`. -/
theorem import_success_with_empty_items :
    Bundle.importSrc envC2 "--# collection 7\n\"5\"" = Except.ok bundleC2 ∧
    bundleC2.items = [] := ⟨rfl, rfl⟩

/-- C9: when the collection directive parsed to `cid` but the remote
lookup is unavailable (`fetch` returns nothing), import still succeeds —
provided items were scanned — and the bundle carries the collection link
with empty `include` and `exclude` lists. -/
theorem import_fetch_unavailable (env : ImportEnv) (lines : List (List Char)) (cid : Nat)
    (h1 : (scanLines env.parseDate lines (initState env)).1.collection = some cid)
    (h2 : (scanLines env.parseDate lines (initState env)).1.items ≠ [])
    (h3 : env.fetch cid = none) :
    importLines env lines = Except.ok
      ⟨env.freshId, (scanLines env.parseDate lines (initState env)).1.name,
       (scanLines env.parseDate lines (initState env)).1.updated,
       some ⟨cid, [], []⟩,
       (scanLines env.parseDate lines (initState env)).1.items⟩ := by
  unfold importLines buildBundle
  rw [if_neg h2, h1]
  dsimp only
  rw [h3]

def envC9 : ImportEnv := ⟨0, fun _ => none, fun _ => none, 3⟩

def linesC9 : List (List Char) := splitLines ("--# collection 7\n\"5\"").data

/-- Witness for `import_fetch_unavailable` on a concrete text. -/
theorem import_fetch_unavailable_witness :
    importLines envC9 linesC9 = Except.ok
      ⟨envC9.freshId, (scanLines envC9.parseDate linesC9 (initState envC9)).1.name,
       (scanLines envC9.parseDate linesC9 (initState envC9)).1.updated,
       some ⟨7, [], []⟩,
       (scanLines envC9.parseDate linesC9 (initState envC9)).1.items⟩ :=
  import_fetch_unavailable envC9 linesC9 7 (by decide) (by decide) rfl

/-! Facts about the scanning loop and the `bundle` marker. -/

/-- A line is a bundle marker exactly when its match is a directive with
key `bundle`. -/
theorem isBundleMarker_iff (l : List Char) :
    isBundleMarker l = true ↔ ∃ v, matchLine l = some (Tok.directive "bundle" v) := by
  unfold isBundleMarker
  cases hm : matchLine l with
  | none => simp
  | some t =>
    cases t with
    | item ds => simp
    | directive k v =>
      dsimp only
      rw [beq_iff_eq]
      constructor
      · intro hk
        subst hk
        exact ⟨v, rfl⟩
      · rintro ⟨v2, hkv⟩
        simp only [Option.some.injEq, Tok.directive.injEq] at hkv
        exact hkv.1

/-- A non-marker line never breaks the scanning loop. -/
theorem stepLine_not_marker (pd : String → Option Nat) (st : ScanState) (l : List Char)
    (h : isBundleMarker l = false) : (stepLine pd st l).2 = false := by
  unfold stepLine
  unfold isBundleMarker at h
  cases hm : matchLine l with
  | none => rfl
  | some t =>
    cases t with
    | item ds =>
      rcases hp : parseU64Chars ds with _ | n <;> simp [hp]
    | directive k v =>
      rw [hm] at h
      have hk : ¬ k = "bundle" := by simpa using h
      simp only [if_neg hk]
      rcases v with _ | v
      · rfl
      · split_ifs with h1 h2 h3
        · rfl
        · rcases hp : parseU64 v with _ | n <;> simp [hp]
        · rcases hp : pd v with _ | t2 <;> simp [hp]
        · rfl

/-- A marker line with the flag already set breaks the loop, leaving the
state untouched. -/
theorem stepLine_marker_stop (pd : String → Option Nat) (st : ScanState) (l : List Char)
    (h : isBundleMarker l = true) (hb : st.bundleStart = true) :
    stepLine pd st l = (st, true) := by
  obtain ⟨v, hm⟩ := (isBundleMarker_iff l).mp h
  unfold stepLine
  rw [hm]
  simp [hb]

/-- A marker line with the flag not yet set only sets the flag. -/
theorem stepLine_marker_sets (pd : String → Option Nat) (st : ScanState) (l : List Char)
    (h : isBundleMarker l = true) (hb : st.bundleStart = false) :
    stepLine pd st l = ({ st with bundleStart := true }, false) := by
  obtain ⟨v, hm⟩ := (isBundleMarker_iff l).mp h
  unfold stepLine
  rw [hm]
  simp [hb]

/-- No step ever clears the `bundle_start` flag. -/
theorem stepLine_bundleStart_mono (pd : String → Option Nat) (st : ScanState) (l : List Char)
    (h : st.bundleStart = true) : (stepLine pd st l).1.bundleStart = true := by
  unfold stepLine
  cases hm : matchLine l with
  | none => exact h
  | some t =>
    cases t with
    | item ds =>
      rcases hp : parseU64Chars ds with _ | n <;> simp [hp, h]
    | directive k v =>
      by_cases hk : k = "bundle"
      · simp [hk, h]
      · simp only [if_neg hk]
        rcases v with _ | v
        · exact h
        · split_ifs with h1 h2 h3
          · simpa using h
          · rcases hp : parseU64 v with _ | n <;> simp [hp, h]
          · rcases hp : pd v with _ | t2 <;> simp [hp, h]
          · simpa using h

/-- On a non-marker line the step acts identically on the four data
fields whatever the `bundle_start` flag, which it preserves. -/
theorem stepLine_marker_free (pd : String → Option Nat) (l : List Char)
    (h : isBundleMarker l = false) (st : ScanState) (bs : Bool) :
    stepLine pd { st with bundleStart := bs } l =
      ({ (stepLine pd st l).1 with bundleStart := bs }, false) := by
  unfold stepLine
  unfold isBundleMarker at h
  cases hm : matchLine l with
  | none => rfl
  | some t =>
    cases t with
    | item ds =>
      rcases hp : parseU64Chars ds with _ | n <;> simp [hp]
    | directive k v =>
      rw [hm] at h
      have hk : ¬ k = "bundle" := by simpa using h
      simp only [if_neg hk]
      rcases v with _ | v
      · rfl
      · split_ifs with h1 h2 h3
        · rfl
        · rcases hp : parseU64 v with _ | n <;> simp [hp]
        · rcases hp : pd v with _ | t2 <;> simp [hp]
        · rfl

/-- Splitting the scanned line list: the loop either breaks inside the
first part, or continues into the second from the intermediate state. -/
theorem scanLines_append (pd : String → Option Nat) (xs ys : List (List Char))
    (st : ScanState) :
    scanLines pd (xs ++ ys) st =
      if (scanLines pd xs st).2 then scanLines pd xs st
      else scanLines pd ys (scanLines pd xs st).1 := by
  induction xs generalizing st with
  | nil => simp [scanLines]
  | cons l xs ih =>
    simp only [List.cons_append, scanLines]
    by_cases hb : (stepLine pd st l).2
    · simp [hb]
    · simp only [hb, if_false, Bool.false_eq_true]
      exact ih (stepLine pd st l).1

/-- On marker-free lines the whole scan acts identically on the four
data fields whatever the initial flag, which it preserves, and never
breaks. -/
theorem scanLines_marker_free (pd : String → Option Nat) : ∀ (ls : List (List Char)),
    (∀ l ∈ ls, isBundleMarker l = false) → ∀ (st : ScanState) (bs : Bool),
    scanLines pd ls { st with bundleStart := bs } =
      ({ (scanLines pd ls st).1 with bundleStart := bs }, false) := by
  intro ls
  induction ls with
  | nil =>
    intro h st bs
    rfl
  | cons l ls ih =>
    intro h st bs
    have hl : isBundleMarker l = false := h l (List.mem_cons_self l ls)
    have hrest : ∀ l2 ∈ ls, isBundleMarker l2 = false :=
      fun l2 h2 => h l2 (List.mem_cons_of_mem l h2)
    simp only [scanLines]
    rw [stepLine_marker_free pd l hl st bs]
    rw [stepLine_not_marker pd st l hl]
    simp only [Bool.false_eq_true, if_false]
    exact ih hrest (stepLine pd st l).1 bs

/-- No scan ever clears the `bundle_start` flag. -/
theorem scanLines_flag_mono (pd : String → Option Nat) : ∀ (ls : List (List Char))
    (st : ScanState), st.bundleStart = true → (scanLines pd ls st).1.bundleStart = true := by
  intro ls
  induction ls with
  | nil =>
    intro st h
    exact h
  | cons l ls ih =>
    intro st h
    simp only [scanLines]
    by_cases hb : (stepLine pd st l).2 = true
    · simp only [hb, if_true]
      exact stepLine_bundleStart_mono pd st l h
    · simp only [hb, if_false, Bool.false_eq_true]
      exact ih (stepLine pd st l).1 (stepLine_bundleStart_mono pd st l h)

/-- If the line list contains a marker and the scan did not break, the
final state has the `bundle_start` flag set. -/
theorem scanLines_sets_flag (pd : String → Option Nat) : ∀ (ls : List (List Char))
    (st : ScanState), (∃ l ∈ ls, isBundleMarker l = true) →
    (scanLines pd ls st).2 = false → (scanLines pd ls st).1.bundleStart = true := by
  intro ls
  induction ls with
  | nil =>
    intro st hex _
    obtain ⟨l, hl, _⟩ := hex
    cases hl
  | cons l ls ih =>
    intro st hex hnb
    simp only [scanLines] at hnb ⊢
    by_cases hm : isBundleMarker l = true
    · by_cases hbs : st.bundleStart = true
      · rw [stepLine_marker_stop pd st l hm hbs] at hnb
        simp at hnb
      · rw [stepLine_marker_sets pd st l hm (by simpa using hbs)] at hnb ⊢
        simp only [Bool.false_eq_true, if_false] at hnb ⊢
        exact scanLines_flag_mono pd ls _ rfl
    · have hnm : (stepLine pd st l).2 = false := stepLine_not_marker pd st l (by simpa using hm)
      rw [hnm] at hnb ⊢
      simp only [Bool.false_eq_true, if_false] at hnb ⊢
      obtain ⟨l2, hl2, hm2⟩ := hex
      rcases List.mem_cons.mp hl2 with heq | hl2'
      · exact absurd (heq ▸ hm2) (by simpa using hm)
      · exact ih _ ⟨l2, hl2', hm2⟩ hnb

/-- C4 (amended): the `bundle` marker is irrelevant to how lines are
processed — contrary to the spec's "directive keys are only considered
after the marker", the scan honors `name`, `collection` and `updated`
directives and collects item literals whether or not a marker has been
seen: prepending a marker line to marker-free text does not change
the import result at all. -/
theorem import_marker_independent (env : ImportEnv) (ls : List (List Char))
    (h : ∀ l ∈ ls, isBundleMarker l = false) :
    importLines env (("--# bundle").data :: ls) = importLines env ls := by
  have hmarker : isBundleMarker ("--# bundle").data = true := by decide
  have hscan : scanLines env.parseDate (("--# bundle").data :: ls) (initState env) =
      ({ (scanLines env.parseDate ls (initState env)).1 with bundleStart := true }, false) := by
    simp only [scanLines]
    rw [stepLine_marker_sets env.parseDate (initState env) _ hmarker rfl]
    simp only [Bool.false_eq_true, if_false]
    exact scanLines_marker_free env.parseDate ls h (initState env) true
  unfold importLines
  rw [hscan]
  rfl

def envC4 : ImportEnv := ⟨0, fun _ => none, fun _ => none, 1⟩

/-- C4 counterexample: the text has no `bundle` marker at all, yet the
`name Foo` directive is honored — the imported bundle's name is `Foo`,
not the claimed default empty name. -/
theorem import_directive_without_marker :
    Bundle.importSrc envC4 "--# name Foo\n\"123\"" =
      Except.ok ⟨1, "Foo", 0, none, [123]⟩ ∧ "Foo" ≠ "" := ⟨rfl, by decide⟩

/-- Witness for `import_marker_independent` on a concrete text. -/
theorem import_marker_independent_witness :
    importLines envC4 (("--# bundle").data :: splitLines ("--# name Foo\n\"123\"").data) =
      importLines envC4 (splitLines ("--# name Foo\n\"123\"").data) :=
  import_marker_independent envC4 (splitLines ("--# name Foo\n\"123\"").data) (by decide)

/-- C6: when the text already contained a `bundle` marker, a second
marker line terminates the scan: everything at or after it is ignored
and the import result is that of the preceding lines alone. -/
theorem second_marker_ignored (env : ImportEnv) (l1 l2 : List (List Char)) (m : List Char)
    (hm : isBundleMarker m = true) (h1 : ∃ l ∈ l1, isBundleMarker l = true) :
    importLines env (l1 ++ m :: l2) = importLines env l1 := by
  unfold importLines
  rw [scanLines_append env.parseDate l1 (m :: l2) (initState env)]
  by_cases hb : (scanLines env.parseDate l1 (initState env)).2 = true
  · rw [if_pos hb]
  · rw [if_neg hb]
    have hflag := scanLines_sets_flag env.parseDate l1 (initState env) h1 (by simpa using hb)
    simp only [scanLines]
    rw [stepLine_marker_stop env.parseDate _ m hm hflag]
    simp

/-- Witness for `second_marker_ignored` on a concrete text. -/
theorem second_marker_ignored_witness :
    importLines envC4 (splitLines ("--# bundle\n\"1\"").data ++
        ("--# bundle").data :: [("\"2\"").data]) =
      importLines envC4 (splitLines ("--# bundle\n\"1\"").data) :=
  second_marker_ignored envC4 (splitLines ("--# bundle\n\"1\"").data) [("\"2\"").data]
    (("--# bundle").data) (by decide) ⟨("--# bundle").data, by decide, by decide⟩

/-! Decimal rendering and digit facts, for the export/import round trip. -/

/-- For digits below ten, `Nat.digitChar` yields an ASCII digit with the
expected value. -/
theorem digitChar_val (d : Nat) (h : d < 10) :
    (Nat.digitChar d).isDigit = true ∧ (Nat.digitChar d).toNat - 48 = d := by
  interval_cases d <;> exact ⟨by decide, by decide⟩

/-- With enough fuel the fuelled decimal rendering produces only digits,
evaluates back to its input, and is non-empty away from zero. -/
theorem natToDecAux_spec : ∀ (fuel n : Nat), n ≤ fuel →
    (natToDecAux fuel n).all Char.isDigit = true ∧ digitsVal (natToDecAux fuel n) = n ∧
    (n ≠ 0 → natToDecAux fuel n ≠ []) := by
  intro fuel
  induction fuel with
  | zero =>
    intro n hn
    have h0 : n = 0 := by omega
    subst h0
    exact ⟨rfl, rfl, fun h => absurd rfl h⟩
  | succ fuel ih =>
    intro n hn
    match n with
    | 0 => exact ⟨rfl, rfl, fun h => absurd rfl h⟩
    | m + 1 =>
      have hdiv : (m + 1) / 10 ≤ fuel := by
        have h1 : (m + 1) / 10 < m + 1 := Nat.div_lt_self (by omega) (by omega)
        omega
      obtain ⟨ha, hv, _⟩ := ih ((m + 1) / 10) hdiv
      have hm10 : (m + 1) % 10 < 10 := Nat.mod_lt _ (by omega)
      obtain ⟨hd1, hd2⟩ := digitChar_val ((m + 1) % 10) hm10
      refine ⟨?_, ?_, ?_⟩
      · simp only [natToDecAux, List.all_append, ha, List.all_cons, List.all_nil, hd1]
        rfl
      · simp only [natToDecAux, digitsVal, List.foldl_append, List.foldl_cons, List.foldl_nil]
        have hpre : List.foldl (fun a c => 10 * a + (c.toNat - 48)) 0
            (natToDecAux fuel ((m + 1) / 10)) = (m + 1) / 10 := hv
        rw [hpre, hd2]
        omega
      · intro _
        simp [natToDecAux]

/-- The decimal rendering consists of digits only. -/
theorem natToDec_digits (n : Nat) : (natToDec n).all Char.isDigit = true := by
  unfold natToDec
  split_ifs with h
  · decide
  · exact (natToDecAux_spec n n (le_refl n)).1

/-- The decimal rendering evaluates back to its input. -/
theorem natToDec_val (n : Nat) : digitsVal (natToDec n) = n := by
  unfold natToDec
  split_ifs with h
  · subst h
    decide
  · exact (natToDecAux_spec n n (le_refl n)).2.1

/-- The decimal rendering is never empty. -/
theorem natToDec_ne_nil (n : Nat) : natToDec n ≠ [] := by
  unfold natToDec
  split_ifs with h
  · decide
  · exact (natToDecAux_spec n n (le_refl n)).2.2 h

/-- A digit character is not a space or tab. -/
theorem not_ws_of_digit (c : Char) (h : c.isDigit = true) : isWs c = false := by
  by_contra hne
  have h2 : isWs c = true := by
    cases hw : isWs c
    · exact absurd hw hne
    · rfl
  unfold isWs at h2
  simp only [Bool.or_eq_true, beq_iff_eq] at h2
  rcases h2 with rfl | rfl
  · exact absurd h (by decide)
  · exact absurd h (by decide)

/-- A digit string contains no newline. -/
theorem no_newline_of_digits (ds : List Char) (h : ds.all Char.isDigit = true) :
    '\n' ∉ ds := by
  intro hm
  have h2 := List.all_eq_true.mp h '\n' hm
  exact absurd h2 (by decide)

/-- Parsing back the decimal rendering of an in-range `u64` succeeds. -/
theorem parseU64Chars_natToDec (n : Nat) (h : n < 18446744073709551616) :
    parseU64Chars (natToDec n) = some n := by
  have hd := natToDec_digits n
  have hv := natToDec_val n
  have hne := natToDec_ne_nil n
  cases hl : natToDec n with
  | nil => exact absurd hl hne
  | cons c cs =>
    rw [hl] at hd hv
    have hcd : c.isDigit = true := by
      simp only [List.all_cons, Bool.and_eq_true] at hd
      exact hd.1
    have hcp : ¬ c = '+' := by
      intro he
      rw [he] at hcd
      exact absurd hcd (by decide)
    unfold parseU64Chars
    simp only [if_neg hcp]
    rw [if_neg (by simp), if_pos hd, hv, if_pos h]

/-- `takeWhile` passes over a satisfying block. -/
theorem takeWhile_append_of_all {α : Type} (p : α → Bool) : ∀ (ds rest : List α),
    ds.all p = true → (ds ++ rest).takeWhile p = ds ++ rest.takeWhile p := by
  intro ds
  induction ds with
  | nil =>
    intro rest _
    simp
  | cons d ds ih =>
    intro rest h
    simp only [List.all_cons, Bool.and_eq_true] at h
    simp only [List.cons_append, List.takeWhile_cons, h.1, if_true]
    rw [ih rest h.2]

/-- `dropWhile` passes over a satisfying block. -/
theorem dropWhile_append_of_all {α : Type} (p : α → Bool) : ∀ (ds rest : List α),
    ds.all p = true → (ds ++ rest).dropWhile p = rest.dropWhile p := by
  intro ds
  induction ds with
  | nil =>
    intro rest _
    simp
  | cons d ds ih =>
    intro rest h
    simp only [List.all_cons, Bool.and_eq_true] at h
    simp only [List.cons_append, List.dropWhile_cons, h.1, if_true]
    exact ih rest h.2

/-- Splitting passes over a newline-free block, accumulating it. -/
theorem splitLinesAux_append_noNL : ∀ (l cur rest : List Char), '\n' ∉ l →
    splitLinesAux cur (l ++ rest) = splitLinesAux (cur ++ l) rest := by
  intro l
  induction l with
  | nil =>
    intro cur rest _
    simp
  | cons c l ih =>
    intro cur rest h
    have hc : ¬ c = '\n' := fun he => h (he ▸ List.mem_cons_self c l)
    simp only [List.cons_append, splitLinesAux, if_neg hc, List.append_eq]
    rw [ih (cur ++ [c]) rest (fun hm => h (List.mem_cons_of_mem c hm))]
    simp [List.append_assoc]

/-- A newline closes the current line. -/
theorem splitLinesAux_newline (cur rest : List Char) :
    splitLinesAux cur ('\n' :: rest) = cur :: splitLinesAux [] rest := by
  simp [splitLinesAux]

/-! Directive-line and item-line characterizations. -/

/-- The lazy key accumulates over whitespace-free characters. -/
theorem splitKVAux_no_ws : ∀ (m acc : List Char), (∀ c ∈ m, isWs c = false) →
    ∀ rest, splitKVAux acc (m ++ rest) = splitKVAux (acc ++ m) rest := by
  intro m
  induction m with
  | nil =>
    intro acc _ rest
    simp
  | cons c m ih =>
    intro acc h rest
    have hc : isWs c = false := h c (List.mem_cons_self c m)
    simp only [List.cons_append, splitKVAux, hc, Bool.false_eq_true, if_false, List.append_eq]
    rw [ih (acc ++ [c]) (fun c2 h2 => h c2 (List.mem_cons_of_mem c h2)) rest]
    simp [List.append_assoc]

/-- A whitespace then a value whose first character is not whitespace:
the key closes and the value is the whole remainder. -/
theorem splitKVAux_val_exact (acc : List Char) (c : Char) (cs : List Char)
    (hc : isWs c = false) :
    splitKVAux acc (' ' :: c :: cs) = (acc, some (c :: cs)) := by
  have hw : isWs ' ' = true := by decide
  have hd : (' ' :: c :: cs).dropWhile isWs = c :: cs := by
    simp [List.dropWhile_cons, hw, hc]
  simp only [splitKVAux, hw, if_true]
  rw [hd]

/-- A whitespace followed by anything non-empty always closes the key
with some value. -/
theorem splitKVAux_val_any (acc : List Char) (c : Char) (cs : List Char) :
    ∃ v, splitKVAux acc (' ' :: c :: cs) = (acc, some v) := by
  have hw : isWs ' ' = true := by decide
  by_cases hcw : isWs c = true
  · cases hd : (' ' :: c :: cs).dropWhile isWs with
    | nil =>
      have htk : (' ' :: c :: cs).takeWhile isWs = ' ' :: (c :: cs).takeWhile isWs := by
        simp [List.takeWhile_cons, hw]
      refine ⟨[((' ' :: c :: cs).takeWhile isWs).getLastD ' '], ?_⟩
      simp only [splitKVAux, hw, if_true]
      rw [hd]
      rw [if_pos ?_]
      rw [htk]
      simp only [List.takeWhile_cons, hcw, if_true, List.length_cons]
      omega
    | cons r rs =>
      refine ⟨r :: rs, ?_⟩
      simp only [splitKVAux, hw, if_true]
      rw [hd]
  · exact ⟨c :: cs, splitKVAux_val_exact acc c cs (by simpa using hcw)⟩

/-- Reduction of the directive matcher on a word followed by a tail. -/
theorem matchDirective_eq (w tail : List Char) (hne : w ≠ [])
    (hwws : ∀ c ∈ w, isWs c = false) :
    matchDirective (' ' :: w ++ tail) =
      some (Tok.directive (String.mk (splitKVAux w tail).1)
        (((splitKVAux w tail).2).map String.mk)) := by
  cases w with
  | nil => exact absurd rfl hne
  | cons wc wrest =>
    have hwc : isWs wc = false := hwws wc (List.mem_cons_self wc wrest)
    have hwr : ∀ c ∈ wrest, isWs c = false := fun c h => hwws c (List.mem_cons_of_mem wc h)
    unfold matchDirective
    have hdrop : dropWs (' ' :: (wc :: wrest) ++ tail) = wc :: (wrest ++ tail) := by
      have hw : isWs ' ' = true := by decide
      simp [dropWs, hw, hwc]
    rw [hdrop]
    have hkv : splitKVAux [wc] (wrest ++ tail) = splitKVAux (wc :: wrest) tail := by
      rw [splitKVAux_no_ws wrest [wc] hwr tail]
      rfl
    simp [hkv]

/-- A line starting with `--#` reduces to the directive matcher. -/
theorem matchLine_hash (r : List Char) :
    matchLine ('-' :: '-' :: '#' :: r) = matchDirective r := rfl

/-- A comment line `-- …` matches nothing. -/
theorem matchLine_comment (cs : List Char) :
    matchLine ('-' :: '-' :: ' ' :: cs) = none := rfl

/-- A quoted all-digit literal at the start of a line is matched as an
item, whatever follows the closing quote. -/
theorem matchLine_item (ds tail : List Char) (h1 : ds ≠ []) (h2 : ds.all Char.isDigit = true) :
    matchLine (quoteChar :: ds ++ quoteChar :: tail) = some (Tok.item ds) := by
  have hq : isWs quoteChar = false := by decide
  have hqd : quoteChar.isDigit = false := by decide
  unfold matchLine
  have hdrop : dropWs (quoteChar :: ds ++ quoteChar :: tail) =
      quoteChar :: (ds ++ quoteChar :: tail) := by
    simp [dropWs, hq]
  rw [hdrop]
  dsimp only
  rw [if_pos rfl]
  unfold matchQuote
  rw [takeWhile_append_of_all Char.isDigit ds (quoteChar :: tail) h2,
    dropWhile_append_of_all Char.isDigit ds (quoteChar :: tail) h2]
  simp only [List.takeWhile_cons, List.dropWhile_cons, hqd, Bool.false_eq_true, if_false,
    List.append_nil]
  cases ds with
  | nil => exact absurd rfl h1
  | cons d ds2 => simp

/-- One non-breaking step folds into the scan. -/
theorem scanLines_cons_nb (pd : String → Option Nat) (l : List Char) (ls : List (List Char))
    (st st2 : ScanState) (h : stepLine pd st l = (st2, false)) :
    scanLines pd (l :: ls) st = scanLines pd ls st2 := by
  simp only [scanLines, h]
  rfl

/-- A line matching nothing leaves the scan state untouched. -/
theorem stepLine_none (pd : String → Option Nat) (st : ScanState) (l : List Char)
    (h : matchLine l = none) : stepLine pd st l = (st, false) := by
  unfold stepLine
  rw [h]

/-- A comment line `-- …` leaves the scan state untouched. -/
theorem stepLine_comment (pd : String → Option Nat) (st : ScanState) (cs : List Char) :
    stepLine pd st ('-' :: '-' :: ' ' :: cs) = (st, false) :=
  stepLine_none pd st _ (matchLine_comment cs)

/-- The `name` directive with a non-empty value not starting in
whitespace sets the name to exactly that value. -/
theorem stepLine_name_cons (pd : String → Option Nat) (st : ScanState) (c : Char)
    (cs : List Char) (hc : isWs c = false) :
    stepLine pd st (("--# name ").data ++ (c :: cs)) =
      ({ st with name := String.mk (c :: cs) }, false) := by
  have hline : ("--# name ").data ++ (c :: cs) =
      '-' :: '-' :: '#' :: (' ' :: ("name").data ++ (' ' :: c :: cs)) := rfl
  have hm : matchLine (("--# name ").data ++ (c :: cs)) =
      some (Tok.directive "name" (some (String.mk (c :: cs)))) := by
    rw [hline, matchLine_hash,
      matchDirective_eq ("name").data (' ' :: c :: cs) (by decide) (by decide),
      splitKVAux_val_exact ("name").data c cs hc]
    rfl
  unfold stepLine
  rw [hm]
  simp

/-- The bare `--# name ` line (empty exported name) parses to the key
`name ` with no value and leaves the state untouched. -/
theorem stepLine_name_empty (pd : String → Option Nat) (st : ScanState) :
    stepLine pd st (("--# name ").data) = (st, false) := by
  have hm : matchLine (("--# name ").data) = some (Tok.directive "name " none) := by decide
  unfold stepLine
  rw [hm]
  simp

/-- The `collection` directive whose value is the decimal rendering of
an in-range id sets the collection id to it. -/
theorem stepLine_collection_dec (pd : String → Option Nat) (st : ScanState) (cid : Nat)
    (h : cid < 18446744073709551616) :
    stepLine pd st (("--# collection ").data ++ natToDec cid) =
      ({ st with collection := some cid }, false) := by
  cases hdec : natToDec cid with
  | nil => exact absurd hdec (natToDec_ne_nil cid)
  | cons c cs =>
    have hcd : c.isDigit = true := by
      have := natToDec_digits cid
      rw [hdec] at this
      simp only [List.all_cons, Bool.and_eq_true] at this
      exact this.1
    have hline : ("--# collection ").data ++ (c :: cs) =
        '-' :: '-' :: '#' :: (' ' :: ("collection").data ++ (' ' :: c :: cs)) := rfl
    have hm : matchLine (("--# collection ").data ++ (c :: cs)) =
        some (Tok.directive "collection" (some (String.mk (c :: cs)))) := by
      rw [hline, matchLine_hash,
        matchDirective_eq ("collection").data (' ' :: c :: cs) (by decide) (by decide),
        splitKVAux_val_exact ("collection").data c cs (not_ws_of_digit c hcd)]
      rfl
    unfold stepLine
    rw [hm]
    have hp : parseU64 (String.mk (c :: cs)) = some cid := by
      unfold parseU64
      rw [show (String.mk (c :: cs)).data = c :: cs from rfl, ← hdec]
      exact parseU64Chars_natToDec cid h
    simp [hp]

/-- The `updated` directive line only (possibly) sets the timestamp,
whatever the rendered date string is. -/
theorem stepLine_updated_line (pd : String → Option Nat) (st : ScanState) (v : List Char) :
    ∃ u, stepLine pd st (("--# updated ").data ++ v) = ({ st with updated := u }, false) := by
  cases v with
  | nil =>
    refine ⟨st.updated, ?_⟩
    have hm : matchLine (("--# updated ").data ++ []) =
        some (Tok.directive "updated " none) := by decide
    unfold stepLine
    rw [hm]
    simp
  | cons c cs =>
    have hline : ("--# updated ").data ++ (c :: cs) =
        '-' :: '-' :: '#' :: (' ' :: ("updated").data ++ (' ' :: c :: cs)) := rfl
    obtain ⟨v2, hv2⟩ := splitKVAux_val_any ("updated").data c cs
    have hm : matchLine (("--# updated ").data ++ (c :: cs)) =
        some (Tok.directive "updated" (some (String.mk v2))) := by
      rw [hline, matchLine_hash,
        matchDirective_eq ("updated").data (' ' :: c :: cs) (by decide) (by decide), hv2]
      rfl
    cases hpd : pd (String.mk v2) with
    | none =>
      refine ⟨st.updated, ?_⟩
      unfold stepLine
      rw [hm]
      simp [hpd]
    | some t =>
      refine ⟨t, ?_⟩
      unfold stepLine
      rw [hm]
      simp [hpd]

/-- The line (before its newline) produced by `itemChunk` for an item
whose name is present in the caller's map. -/
def itemLine (names : Nat → Option String) (i : Nat) : List Char :=
  quoteChar :: natToDec i ++ [quoteChar] ++ (" -- ").data ++ ((names i).getD "").data

/-- An item line with an in-range id appends exactly that id. -/
theorem stepLine_item_dec (pd : String → Option Nat) (st : ScanState) (i : Nat)
    (h : i < 18446744073709551616) (tail : List Char) :
    stepLine pd st (quoteChar :: natToDec i ++ quoteChar :: tail) =
      ({ st with items := st.items ++ [i] }, false) := by
  have hm := matchLine_item (natToDec i) tail (natToDec_ne_nil i) (natToDec_digits i)
  unfold stepLine
  rw [hm]
  dsimp only
  rw [parseU64Chars_natToDec i h]

/-- `stepLine` on an `itemLine` appends the id. -/
theorem stepLine_itemLine (pd : String → Option Nat) (st : ScanState)
    (names : Nat → Option String) (i : Nat) (h : i < 18446744073709551616) :
    stepLine pd st (itemLine names i) = ({ st with items := st.items ++ [i] }, false) := by
  have hshape : itemLine names i =
      quoteChar :: natToDec i ++ quoteChar :: ((" -- ").data ++ ((names i).getD "").data) := by
    simp [itemLine, List.append_assoc]
  rw [hshape]
  exact stepLine_item_dec pd st i h _

/-- A string certified newline-free contains no newline. -/
theorem not_mem_of_noNL (s : String) (h : noNL s = true) : '\n' ∉ s.data := by
  unfold noNL at h
  simpa using h

/-- An item line contains no newline when the supplied name has none. -/
theorem itemLine_no_newline (names : Nat → Option String) (i : Nat) (nm : String)
    (hni : names i = some nm) (h : noNL nm = true) : '\n' ∉ itemLine names i := by
  intro hm
  have hdec := no_newline_of_digits (natToDec i) (natToDec_digits i)
  have hnm := not_mem_of_noNL nm h
  simp [itemLine, hni, hdec, hnm] at hm
  exact absurd hm (by decide)

/-- Splitting the flattened item chunks produces one line per item (all
names being present and newline-free). -/
theorem splitLinesAux_itemChunks (names : Nat → Option String) : ∀ (l : List Nat),
    namesOk names l = true → ∀ (rest : List Char),
    splitLinesAux [] ((l.map (itemChunk names)).flatten ++ rest) =
      l.map (itemLine names) ++ splitLinesAux [] rest := by
  intro l
  induction l with
  | nil =>
    intro _ rest
    simp
  | cons i l ih =>
    intro h rest
    simp only [namesOk, List.all_cons, Bool.and_eq_true] at h
    obtain ⟨hi, hrest⟩ := h
    cases hni : names i with
    | none =>
      rw [hni] at hi
      exact absurd hi (by decide)
    | some nm =>
      rw [hni] at hi
      have hchunk : itemChunk names i = itemLine names i ++ ['\n'] := by
        unfold itemChunk itemLine
        rw [hni]
        simp [List.append_assoc]
      have hnl := itemLine_no_newline names i nm hni hi
      simp only [List.map_cons, List.flatten_cons, hchunk, List.append_assoc,
        List.singleton_append]
      rw [splitLinesAux_append_noNL (itemLine names i) [] _ hnl]
      simp only [List.nil_append, List.cons_append]
      rw [splitLinesAux_newline]
      rw [ih hrest rest]

/-- Scanning the item lines appends exactly the (in-range) ids. -/
theorem scanLines_itemLines (pd : String → Option Nat) (names : Nat → Option String) :
    ∀ (l : List Nat), idsOk l = true → ∀ (rest : List (List Char)) (st : ScanState),
    scanLines pd (l.map (itemLine names) ++ rest) st =
      scanLines pd rest { st with items := st.items ++ l } := by
  intro l
  induction l with
  | nil =>
    intro _ rest st
    have hx : ({ st with items := st.items ++ [] } : ScanState) = st := by
      cases st
      simp
    rw [hx]
    simp
  | cons i l ih =>
    intro h rest st
    simp only [idsOk, List.all_cons, Bool.and_eq_true] at h
    obtain ⟨hi, hrest⟩ := h
    have hi2 : i < 18446744073709551616 := of_decide_eq_true hi
    simp only [List.map_cons, List.cons_append]
    rw [scanLines_cons_nb pd _ _ st _ (stepLine_itemLine pd st names i hi2)]
    rw [ih hrest rest _]
    have hx : ({ { st with items := st.items ++ [i] } with
        items := (st.items ++ [i]) ++ l } : ScanState)
        = { st with items := st.items ++ (i :: l) } := by
      cases st
      simp
    rw [hx]

/-- A newline-free line followed by an explicit newline splits off. -/
theorem splitLinesAux_line1 (l rest : List Char) (h : '\n' ∉ l) :
    splitLinesAux [] (l ++ ('\n' :: rest)) = l :: splitLinesAux [] rest := by
  rw [splitLinesAux_append_noNL l [] _ h]
  simp only [List.nil_append]
  rw [splitLinesAux_newline]

/-- A two-part newline-free line followed by a newline splits off. -/
theorem splitLinesAux_line2 (a bp rest : List Char) (ha : '\n' ∉ a) (hb : '\n' ∉ bp) :
    splitLinesAux [] (a ++ (bp ++ ('\n' :: rest))) = (a ++ bp) :: splitLinesAux [] rest := by
  rw [splitLinesAux_append_noNL a [] _ ha]
  simp only [List.nil_append]
  rw [splitLinesAux_append_noNL bp a _ hb]
  rw [splitLinesAux_newline]

/-- A final newline-free segment forms the last line. -/
theorem splitLinesAux_last (l : List Char) (h : '\n' ∉ l) : splitLinesAux [] l = [l] := by
  have h2 := splitLinesAux_append_noNL l [] [] h
  simpa using h2

/-- The collection block of the export, as lines. -/
def collSectionLines (names : Nat → Option String) (cname : Option String)
    (c : BundleCollectionLink) (tail : List (List Char)) : List (List Char) :=
  [] :: ("-- Collection").data ::
  ((match cname with
    | some cn => [('-' :: '-' :: ' ' :: cn.data)]
    | none => []) ++
   ((("-- https://steamcommunity.com/sharedfiles/filedetails/?id=").data ++ natToDec c.id) ::
    (c.include'.map (itemLine names) ++ tail)))

/-- The full export, as lines. -/
def exportLines (toRfc : Nat → String) (b : Bundle) (names : Nat → Option String)
    (cname : Option String) : List (List Char) :=
  ("-- generated by gmpublisher").data ::
  ("-- https://gmpublisher.download").data ::
  ("--# bundle").data ::
  (("--# name ").data ++ b.name.data) ::
  ((match b.collection with
    | some c => [("--# collection ").data ++ natToDec c.id]
    | none => []) ++
   ((("--# updated ").data ++ (toRfc b.updated).data) ::
    ("for _,w in ipairs(\x7b").data ::
    [] ::
    (b.items.map (itemLine names) ++
     (match b.collection with
      | some c => collSectionLines names cname c
          [[], ("\x7d) do resource.AddWorkshop(w) end").data]
      | none => [[], ("\x7d) do resource.AddWorkshop(w) end").data]))))

/-- A newline-free block passes into the accumulator, for any
accumulator and remainder (simp-oriented form). -/
theorem splitLinesAux_block (l : List Char) (h : '\n' ∉ l) : ∀ (cur rest : List Char),
    splitLinesAux cur (l ++ rest) = splitLinesAux (cur ++ l) rest :=
  fun cur rest => splitLinesAux_append_noNL l cur rest h

set_option maxRecDepth 8192 in
set_option maxHeartbeats 1600000 in
/-- Splitting the exported text yields exactly the expected lines, under
the export hygiene conditions (no stray newlines, names supplied). -/
theorem splitLines_export (toRfc : Nat → String) (b : Bundle) (names : Nat → Option String)
    (cname : Option String)
    (hname : nameOk b.name = true)
    (hdate : noNL (toRfc b.updated) = true)
    (hnames : namesOk names (b.items ++ inclOf b) = true)
    (hcname : cnameOk cname = true) :
    splitLines (exportChars toRfc b names cname) = exportLines toRfc b names cname := by
  have hnameNL : '\n' ∉ b.name.data := by
    unfold nameOk at hname
    simp only [Bool.and_eq_true] at hname
    exact not_mem_of_noNL b.name hname.1
  have hdateNL : '\n' ∉ (toRfc b.updated).data := not_mem_of_noNL _ hdate
  have hnamesItems : namesOk names b.items = true := by
    unfold namesOk at hnames ⊢
    simp only [List.all_append, Bool.and_eq_true] at hnames
    exact hnames.1
  have hnamesIncl : namesOk names (inclOf b) = true := by
    unfold namesOk at hnames ⊢
    simp only [List.all_append, Bool.and_eq_true] at hnames
    exact hnames.2
  unfold splitLines exportChars exportLines
  cases hbc : b.collection with
  | none =>
    dsimp only
    simp [splitLinesAux, splitLinesAux_block b.name.data hnameNL,
      splitLinesAux_block (toRfc b.updated).data hdateNL,
      splitLinesAux_itemChunks names b.items hnamesItems]
  | some c =>
    have hinc : inclOf b = c.include' := by
      unfold inclOf
      rw [hbc]
    rw [hinc] at hnamesIncl
    cases hcn : cname with
    | none =>
      dsimp only
      simp [splitLinesAux, collSectionLines, splitLinesAux_block b.name.data hnameNL,
        splitLinesAux_block (toRfc b.updated).data hdateNL,
        splitLinesAux_block (natToDec c.id) (no_newline_of_digits _ (natToDec_digits c.id)),
        splitLinesAux_itemChunks names b.items hnamesItems,
        splitLinesAux_itemChunks names c.include' hnamesIncl]
    | some cn =>
      have hcnNL : '\n' ∉ cn.data := by
        unfold cnameOk at hcname
        rw [hcn] at hcname
        exact not_mem_of_noNL cn hcname
      dsimp only
      simp [splitLinesAux, collSectionLines, splitLinesAux_block b.name.data hnameNL,
        splitLinesAux_block (toRfc b.updated).data hdateNL,
        splitLinesAux_block (natToDec c.id) (no_newline_of_digits _ (natToDec_digits c.id)),
        splitLinesAux_block cn.data hcnNL,
        splitLinesAux_itemChunks names b.items hnamesItems,
        splitLinesAux_itemChunks names c.include' hnamesIncl]

/-- The exported name line restores the bundle's name (the empty name is
simply never set, matching the empty initial name). -/
theorem stepLine_name_export (pd : String → Option Nat) (st : ScanState)
    (hstn : st.name = "") (b : Bundle) (hname : nameOk b.name = true) :
    stepLine pd st (("--# name ").data ++ b.name.data) =
      ({ st with name := b.name }, false) := by
  cases hn : b.name.data with
  | nil =>
    have hbn : b.name = "" := by
      cases hb2 : b.name with
      | mk d =>
        rw [hb2] at hn
        simp only at hn
        rw [hn]
    rw [List.append_nil, stepLine_name_empty, hbn, ← hstn]
  | cons c cs =>
    have hc : isWs c = false := by
      unfold nameOk at hname
      simp only [Bool.and_eq_true] at hname
      have h2 := hname.2
      rw [hn] at h2
      simp only [Bool.not_eq_eq_eq_not, Bool.not_true] at h2
      exact h2
    rw [stepLine_name_cons pd st c cs hc]
    have h3 : String.mk (c :: cs) = b.name := by
      rw [← hn]
    rw [h3]


set_option maxRecDepth 8192 in
/-- Scanning the exported lines from the initial state yields the state
with the marker seen, the original name and collection id, some
timestamp, and the original items followed by the include list. -/
theorem scan_export (env : ImportEnv) (toRfc : Nat → String) (b : Bundle)
    (names : Nat → Option String) (cname : Option String)
    (hname : nameOk b.name = true)
    (hids : idsOk (b.items ++ inclOf b) = true)
    (hcoll : collOk b = true) :
    ∃ u, scanLines env.parseDate (exportLines toRfc b names cname) (initState env) =
      ({ bundleStart := true, name := b.name,
         collection := Option.map BundleCollectionLink.id b.collection,
         updated := u, items := b.items ++ inclOf b }, false) := by
  have hidsItems : idsOk b.items = true := by
    unfold idsOk at hids ⊢
    simp only [List.all_append, Bool.and_eq_true] at hids
    exact hids.1
  have hidsIncl : idsOk (inclOf b) = true := by
    unfold idsOk at hids ⊢
    simp only [List.all_append, Bool.and_eq_true] at hids
    exact hids.2
  unfold exportLines inclOf
  cases hbc : b.collection with
  | none =>
    obtain ⟨u, hu⟩ := stepLine_updated_line env.parseDate
      { { initState env with bundleStart := true } with name := b.name }
      ((toRfc b.updated).data)
    refine ⟨u, ?_⟩
    refine Eq.trans (scanLines_cons_nb env.parseDate _ _ _ _
      (stepLine_none env.parseDate (initState env)
        ("-- generated by gmpublisher").data (by decide))) ?_
    refine Eq.trans (scanLines_cons_nb env.parseDate _ _ _ _
      (stepLine_none env.parseDate (initState env)
        ("-- https://gmpublisher.download").data (by decide))) ?_
    refine Eq.trans (scanLines_cons_nb env.parseDate _ _ _ _
      (stepLine_marker_sets env.parseDate (initState env)
        ("--# bundle").data (by decide) rfl)) ?_
    refine Eq.trans (scanLines_cons_nb env.parseDate _ _ _ _
      (stepLine_name_export env.parseDate
        { initState env with bundleStart := true } rfl b hname)) ?_
    refine Eq.trans (scanLines_cons_nb env.parseDate _ _ _ _ hu) ?_
    refine Eq.trans (scanLines_cons_nb env.parseDate _ _ _ _
      (stepLine_none env.parseDate _ ("for _,w in ipairs(\x7b").data (by decide))) ?_
    refine Eq.trans (scanLines_cons_nb env.parseDate _ _ _ _
      (stepLine_none env.parseDate _ [] (by decide))) ?_
    refine Eq.trans (scanLines_itemLines env.parseDate names b.items hidsItems _ _) ?_
    refine Eq.trans (scanLines_cons_nb env.parseDate _ _ _ _
      (stepLine_none env.parseDate _ [] (by decide))) ?_
    refine Eq.trans (scanLines_cons_nb env.parseDate _ _ _ _
      (stepLine_none env.parseDate _
        ("\x7d) do resource.AddWorkshop(w) end").data (by decide))) ?_
    simp [scanLines, initState]
  | some c =>
    have hincl2 : idsOk c.include' = true := by
      unfold inclOf at hidsIncl
      rw [hbc] at hidsIncl
      exact hidsIncl
    have hcid : c.id < 18446744073709551616 := by
      unfold collOk at hcoll
      rw [hbc] at hcoll
      exact of_decide_eq_true hcoll
    have hurl : matchLine
        (("-- https://steamcommunity.com/sharedfiles/filedetails/?id=").data ++
          natToDec c.id) = none := by
      rw [show ("-- https://steamcommunity.com/sharedfiles/filedetails/?id=").data ++
          natToDec c.id = '-' :: '-' :: ' ' ::
          (("https://steamcommunity.com/sharedfiles/filedetails/?id=").data ++
            natToDec c.id) from rfl]
      exact matchLine_comment _
    unfold collSectionLines
    obtain ⟨u, hu⟩ := stepLine_updated_line env.parseDate
      { { { initState env with bundleStart := true } with name := b.name } with
          collection := some c.id }
      ((toRfc b.updated).data)
    refine ⟨u, ?_⟩
    refine Eq.trans (scanLines_cons_nb env.parseDate _ _ _ _
      (stepLine_none env.parseDate (initState env)
        ("-- generated by gmpublisher").data (by decide))) ?_
    refine Eq.trans (scanLines_cons_nb env.parseDate _ _ _ _
      (stepLine_none env.parseDate (initState env)
        ("-- https://gmpublisher.download").data (by decide))) ?_
    refine Eq.trans (scanLines_cons_nb env.parseDate _ _ _ _
      (stepLine_marker_sets env.parseDate (initState env)
        ("--# bundle").data (by decide) rfl)) ?_
    refine Eq.trans (scanLines_cons_nb env.parseDate _ _ _ _
      (stepLine_name_export env.parseDate
        { initState env with bundleStart := true } rfl b hname)) ?_
    refine Eq.trans (scanLines_cons_nb env.parseDate _ _ _ _
      (stepLine_collection_dec env.parseDate
        { { initState env with bundleStart := true } with name := b.name } c.id hcid)) ?_
    refine Eq.trans (scanLines_cons_nb env.parseDate _ _ _ _ hu) ?_
    refine Eq.trans (scanLines_cons_nb env.parseDate _ _ _ _
      (stepLine_none env.parseDate _ ("for _,w in ipairs(\x7b").data (by decide))) ?_
    refine Eq.trans (scanLines_cons_nb env.parseDate _ _ _ _
      (stepLine_none env.parseDate _ [] (by decide))) ?_
    refine Eq.trans (scanLines_itemLines env.parseDate names b.items hidsItems _ _) ?_
    refine Eq.trans (scanLines_cons_nb env.parseDate _ _ _ _
      (stepLine_none env.parseDate _ [] (by decide))) ?_
    refine Eq.trans (scanLines_cons_nb env.parseDate _ _ _ _
      (stepLine_none env.parseDate _ ("-- Collection").data (by decide))) ?_
    cases hcn : cname with
    | none =>
      refine Eq.trans (scanLines_cons_nb env.parseDate _ _ _ _
        (stepLine_none env.parseDate _ _ hurl)) ?_
      refine Eq.trans (scanLines_itemLines env.parseDate names c.include' hincl2 _ _) ?_
      refine Eq.trans (scanLines_cons_nb env.parseDate _ _ _ _
        (stepLine_none env.parseDate _ [] (by decide))) ?_
      refine Eq.trans (scanLines_cons_nb env.parseDate _ _ _ _
        (stepLine_none env.parseDate _
          ("\x7d) do resource.AddWorkshop(w) end").data (by decide))) ?_
      simp [scanLines, initState]
    | some cn =>
      refine Eq.trans (scanLines_cons_nb env.parseDate _ _ _ _
        (stepLine_comment env.parseDate _ cn.data)) ?_
      refine Eq.trans (scanLines_cons_nb env.parseDate _ _ _ _
        (stepLine_none env.parseDate _ _ hurl)) ?_
      refine Eq.trans (scanLines_itemLines env.parseDate names c.include' hincl2 _ _) ?_
      refine Eq.trans (scanLines_cons_nb env.parseDate _ _ _ _
        (stepLine_none env.parseDate _ [] (by decide))) ?_
      refine Eq.trans (scanLines_cons_nb env.parseDate _ _ _ _
        (stepLine_none env.parseDate _
          ("\x7d) do resource.AddWorkshop(w) end").data (by decide))) ?_
      simp [scanLines, initState]

/-- C1 (amended): under the export hygiene conditions — the name has no
newline and no leading whitespace, the rendered timestamp and optional
collection title have no newlines, every exported item has a
caller-supplied newline-free name, all ids fit in 64 bits, and the
bundle lists at least one item across `items` and `collection.include`
— the import of the exported text succeeds and yields a bundle with the same
name, the same collection id (if any), and the same multiset
`items ∪ collection.include`. -/
theorem export_import_round_trip (env : ImportEnv) (toRfc : Nat → String) (b : Bundle)
    (names : Nat → Option String) (cname : Option String)
    (hname : nameOk b.name = true)
    (hdate : noNL (toRfc b.updated) = true)
    (hnames : namesOk names (b.items ++ inclOf b) = true)
    (hcname : cnameOk cname = true)
    (hids : idsOk (b.items ++ inclOf b) = true)
    (hcoll : collOk b = true)
    (hne : b.items ++ inclOf b ≠ []) :
    ∃ b', Bundle.importSrc env (Bundle.exportSrc toRfc b names cname) = Except.ok b' ∧
      b'.name = b.name ∧
      b'.collection.map BundleCollectionLink.id =
        b.collection.map BundleCollectionLink.id ∧
      List.Perm (b'.items ++ inclOf b') (b.items ++ inclOf b) := by
  unfold Bundle.importSrc Bundle.exportSrc importLines
  rw [show (String.mk (exportChars toRfc b names cname)).data =
      exportChars toRfc b names cname from rfl]
  rw [splitLines_export toRfc b names cname hname hdate hnames hcname]
  obtain ⟨u, hscan⟩ := scan_export env toRfc b names cname hname hids hcoll
  rw [hscan]
  dsimp only
  have h := buildBundle_spec env
    ⟨true, b.name, Option.map BundleCollectionLink.id b.collection, u,
      b.items ++ inclOf b⟩
  cases hb : buildBundle env
      ⟨true, b.name, Option.map BundleCollectionLink.id b.collection, u,
        b.items ++ inclOf b⟩ with
  | error e =>
    rw [hb] at h
    exact absurd h.2 hne
  | ok b2 =>
    rw [hb] at h
    exact ⟨b2, rfl, h.2.2.1, h.2.2.2.2.2, h.2.1⟩

def envW1 : ImportEnv := ⟨0, fun _ => some 42, fun _ => some [4], 11⟩

def rfcW1 : Nat → String := fun _ => "Mon, 01 Jan 2024"

def bW1 : Bundle := ⟨3, "My Bundle", 5, some ⟨12, [4], []⟩, [6]⟩

def namesW1 : Nat → Option String := fun _ => some "thing"

theorem export_import_round_trip_witness :
    ∃ b', Bundle.importSrc envW1
        (Bundle.exportSrc rfcW1 bW1 namesW1 (some "Collection Name")) = Except.ok b' ∧
      b'.name = bW1.name ∧
      b'.collection.map BundleCollectionLink.id =
        bW1.collection.map BundleCollectionLink.id ∧
      List.Perm (b'.items ++ inclOf b') (bW1.items ++ inclOf bW1) :=
  export_import_round_trip envW1 rfcW1 bW1 namesW1 (some "Collection Name")
    (by decide) (by decide) (by decide) (by decide) (by decide) (by decide) (by decide)

def cexEnvC1 : ImportEnv := ⟨0, fun _ => none, fun _ => none, 7⟩

def cexBundleC1 : Bundle := ⟨1, "B", 0, none, [1, 2]⟩

def cexNamesC1 : Nat → Option String := fun _ => none

def cexImportedC1 : Bundle := ⟨7, "B", 0, none, [1]⟩

/-- C1 counterexample: a bundle with two items and no caller-supplied
item names exports both item literals onto one line (the code omits the
newline after unnamed items), so re-importing finds only the first one:
the multiset of items is not preserved. -/
theorem export_import_not_round_trip :
    Bundle.importSrc cexEnvC1
      (Bundle.exportSrc (fun _ => "now") cexBundleC1 cexNamesC1 none) =
        Except.ok cexImportedC1 ∧
    ¬ List.Perm (cexImportedC1.items ++ inclOf cexImportedC1)
        (cexBundleC1.items ++ inclOf cexBundleC1) :=
  ⟨rfl, by decide⟩
